import Mathlib

/-!
Verification of the rule-body-to-relational-algebra compiler of cozo-parser
(`src/compile/compile.rs`).

Embedding conventions:
* `Symbol` (from the absent `compile/symb.rs`; the spec states equality and
  ordering are by name) is modelled as its name `String`; source spans carry
  no semantic content for the compiler and are dropped.
* `BTreeSet`/`HashMap` values are modelled as lists with set/assoc-list
  semantics; all source operations on them (membership, insert, extend,
  set equality, difference) are membership-respecting, and no claim depends
  on iteration order of a set.
* Fallible Rust functions returning `miette::Result` are modelled with
  `Except CompileErr`; `todo!()` is the `Unimplemented` error and the one
  reachable `unwrap` on an emptiable iterator is the `Panicked` error.
* `RelAlgebra::filter` recurses through join children that were rebuilt by
  earlier iterations of its conjunct loop, so it is not structurally
  recursive; it is modelled with an explicit fuel argument (`filterGo`),
  initialised so that the fuel never runs out (one unit per `Join` layer,
  and pushing filters never creates a `Join`).
-/

namespace Cozo

/-- A named variable; `compile/symb.rs` is absent from the sources and the
spec specifies equality and ordering by name, so a symbol is its name. -/
abbrev Symbol := String

/-- A `BTreeSet<Symbol>` modelled as a list with set semantics. -/
abbrev SymSet := List Symbol

/-- Insertion into a set of symbols (`BTreeSet::insert`). -/
def setInsert (s : SymSet) (x : Symbol) : SymSet :=
  if s.contains x then s else x :: s

/-- `set.extend(xs)`: insert every element of `xs`. -/
def insertAll (s : SymSet) (xs : List Symbol) : SymSet :=
  xs.foldl setInsert s

/-- The loop `for b in bs { if !used.contains(b) { el.insert(b) } }` shared
by all `do_eliminate_temp_vars` implementations. -/
def insertNotUsed (el : SymSet) (bs : List Symbol) (used : SymSet) : SymSet :=
  bs.foldl (fun acc b => if used.contains b then acc else setInsert acc b) el

/-- Boolean subset test between symbol sets (`BTreeSet::is_subset`). -/
def subsetB (a b : SymSet) : Bool :=
  a.all (fun x => b.contains x)

/-- Boolean equality of symbol sets (`BTreeSet` equality compares elements). -/
def setEqb (a b : SymSet) : Bool :=
  subsetB a b && subsetB b a

/-- Modelled from the spec: `DataValue` (`data/value.rs` is absent); the
compiler never inspects values beyond moving them around, so a small
closed value type suffices. -/
inductive DataValue where
  | null
  | bool (b : Bool)
  | int (n : Int)
  | str (s : String)
deriving DecidableEq

/-- Modelled from the spec: `MagicSymbol` (`compile/program.rs` is absent) is
either an unrewritten name or a magic-sets-rewritten name with an adornment
bit-vector; the compiler uses it only as a map key and storage key. -/
inductive MagicSymbol where
  | muggle (name : String)
  | magic (name : String) (adornment : List Bool)
deriving DecidableEq

/-- The underlying name of a `MagicSymbol` (`MagicSymbol::symbol`). -/
def MagicSymbol.symbolName : MagicSymbol → String
  | .muggle n => n
  | .magic n _ => n

/-- Modelled from the spec: `Expr` (`compile/expr.rs` is absent) — an
expression tree with variable references, constants and operator
applications; conjunctions are applications of the `and` operator. -/
inductive Expr where
  | binding (var : Symbol) (tuple_pos : Option Nat)
  | const (val : DataValue)
  | app (op : String) (args : List Expr)

mutual

/-- Modelled from the spec: `Expr::bindings` — the set of variables a filter
expression references (its variable-binding footprint), as a list. -/
def Expr.bindingsList : Expr → List Symbol
  | .binding v _ => [v]
  | .const _ => []
  | .app _ args => Expr.bindingsListMany args

/-- Variable footprint of a list of expressions, in order. -/
def Expr.bindingsListMany : List Expr → List Symbol
  | [] => []
  | e :: es => Expr.bindingsList e ++ Expr.bindingsListMany es

end

/-- Modelled from the spec: `Expr::to_conjunction` — the top-level
conjunctive clauses of an expression (an `and` application decomposes into
its arguments; anything else is a single clause). -/
def Expr.to_conjunction (e : Expr) : List Expr :=
  match e with
  | .app op args => if op = "and" then args else [e]
  | _ => [e]

/-- Modelled from the spec: `Expr::build_equate` — an equality test. -/
def Expr.build_equate (args : List Expr) : Expr :=
  .app "eq" args

/-- Modelled from the spec: `Expr::build_is_in` — a set-membership test. -/
def Expr.build_is_in (args : List Expr) : Expr :=
  .app "is_in" args

/-- The relational-algebra plan nodes of `compile.rs`, with each variant's
struct (`InlineFixedRA`, `TempStoreRA`, `StoredRA`, `InnerJoin`, `ReorderRA`,
`FilteredRA`, `UnificationRA`) inlined into its constructor; `Joiner` is the
pair of key lists `left_keys`/`right_keys`. -/
inductive RelAlgebra where
  | Fixed (bindings : List Symbol) (data : List (List DataValue)) (to_eliminate : SymSet)
  | TempStore (bindings : List Symbol) (storage_key : MagicSymbol) (filters : List Expr)
  | Stored (bindings : List Symbol) (filters : List Expr) (name : String)
  | Join (left : RelAlgebra) (right : RelAlgebra)
      (left_keys : List Symbol) (right_keys : List Symbol) (to_eliminate : SymSet)
  | Reorder (relation : RelAlgebra) (new_order : List Symbol)
  | Filter (parent : RelAlgebra) (filters : List Expr) (to_eliminate : SymSet)
  | Unification (parent : RelAlgebra) (binding : Symbol) (expr : Expr)
      (is_multi : Bool) (to_eliminate : SymSet)

/-- `InlineFixedRA::unit` wrapped as a plan: no bindings, one empty tuple. -/
def RelAlgebra.unitRA : RelAlgebra :=
  .Fixed [] [[]] []

/-- `RelAlgebra::join`: an `InnerJoin` with the given key lists and an empty
elimination set. -/
def RelAlgebra.join (self right : RelAlgebra)
    (left_keys right_keys : List Symbol) : RelAlgebra :=
  .Join self right left_keys right_keys []

/-- `RelAlgebra::cartesian_join` is a join on zero key pairs. -/
def RelAlgebra.cartesian_join (self right : RelAlgebra) : RelAlgebra :=
  self.join right [] []

/-- `RelAlgebra::reorder`. -/
def RelAlgebra.reorder (self : RelAlgebra) (new_order : List Symbol) : RelAlgebra :=
  .Reorder self new_order

/-- `RelAlgebra::derived`: a `TempStore` scan with no filters. -/
def RelAlgebra.derived (bindings : List Symbol) (storage_key : MagicSymbol) : RelAlgebra :=
  .TempStore bindings storage_key []

/-- `RelAlgebra::relation`: a `Stored` scan with no filters. -/
def RelAlgebra.relationScan (bindings : List Symbol) (name : String) : RelAlgebra :=
  .Stored bindings [] name

/-- `RelAlgebra::unify`: a `Unification` node with an empty elimination set. -/
def RelAlgebra.unify (self : RelAlgebra) (binding : Symbol) (expr : Expr)
    (is_multi : Bool) : RelAlgebra :=
  .Unification self binding expr is_multi []

/-- `RelAlgebra::eliminate_set`: which nodes own a `to_eliminate` set
(`TempStore`, `Stored` and `Reorder` never eliminate). -/
def RelAlgebra.eliminate_set : RelAlgebra → Option SymSet
  | .Fixed _ _ el => some el
  | .TempStore _ _ _ => none
  | .Stored _ _ _ => none
  | .Join _ _ _ _ el => some el
  | .Reorder _ _ => none
  | .Filter _ _ el => some el
  | .Unification _ _ _ _ el => some el

/-- Drop the to-be-eliminated names from a binding list (the filtering step
of `bindings_after_eliminate`). -/
def elimFilter (el? : Option SymSet) (bs : List Symbol) : List Symbol :=
  match el? with
  | some el => bs.filter (fun x => !el.contains x)
  | none => bs

/-- `RelAlgebra::bindings_before_eliminate`; the `Join` case is
`InnerJoin::bindings`, the concatenation of the children's post-elimination
bindings (the source's `debug_assert` there is side-effect free and is the
subject of claim C2). -/
def RelAlgebra.bindings_before_eliminate : RelAlgebra → List Symbol
  | .Fixed bs _ _ => bs
  | .TempStore bs _ _ => bs
  | .Stored bs _ _ => bs
  | .Join l r _ _ _ =>
      elimFilter l.eliminate_set l.bindings_before_eliminate
        ++ elimFilter r.eliminate_set r.bindings_before_eliminate
  | .Reorder _ new_order => new_order
  | .Filter p _ _ => elimFilter p.eliminate_set p.bindings_before_eliminate
  | .Unification p b _ _ _ =>
      elimFilter p.eliminate_set p.bindings_before_eliminate ++ [b]

/-- `RelAlgebra::bindings_after_eliminate`: the exposed bindings, i.e. the
pre-elimination bindings minus the node's own elimination set. -/
def RelAlgebra.bindings_after_eliminate (r : RelAlgebra) : List Symbol :=
  elimFilter r.eliminate_set r.bindings_before_eliminate

/-- Number of `Join` nodes in a plan; used only to size the fuel of the
filter push-down recursion. -/
def joinCount : RelAlgebra → Nat
  | .Fixed _ _ _ => 0
  | .TempStore _ _ _ => 0
  | .Stored _ _ _ => 0
  | .Join l r _ _ _ => joinCount l + joinCount r + 1
  | .Reorder rel _ => joinCount rel
  | .Filter p _ _ => joinCount p
  | .Unification p _ _ _ _ => joinCount p

/-- The conjunct loop of `RelAlgebra::filter`'s `Join` case: each clause is
pushed into the left child if its footprint is a subset of the left child's
bindings, else into the right child if a subset of the right child's, else
appended to the remaining clauses kept above the join.  `push` is the
recursive filter application; the subset tests use the binding sets computed
once from the original children, as in the source. -/
def pushList (push : RelAlgebra → Expr → RelAlgebra) (lbs rbs : List Symbol) :
    List Expr → RelAlgebra × RelAlgebra × List Expr → RelAlgebra × RelAlgebra × List Expr
  | [], acc => acc
  | c :: cs, (accL, accR, rem) =>
      if subsetB c.bindingsList lbs then
        pushList push lbs rbs cs (push accL c, accR, rem)
      else if subsetB c.bindingsList rbs then
        pushList push lbs rbs cs (accL, push accR c, rem)
      else
        pushList push lbs rbs cs (accL, accR, rem ++ [c])

/-- Fuelled body of `RelAlgebra::filter`.  The zero-fuel fallback wraps the
plan in a `Filter` node; `RelAlgebra.filter` supplies enough fuel that it is
never reached (pushing filters never creates a `Join`, so the join depth
never grows). -/
def filterGo : Nat → RelAlgebra → Expr → RelAlgebra
  | 0, r, f => .Filter r [f] []
  | _ + 1, .Fixed bs d el, f => .Filter (.Fixed bs d el) [f] []
  | _ + 1, .Reorder rel no, f => .Filter (.Reorder rel no) [f] []
  | _ + 1, .Unification p b e m el, f => .Filter (.Unification p b e m el) [f] []
  | _ + 1, .Filter p fs el, f => .Filter p (fs ++ [f]) el
  | _ + 1, .TempStore bs k fs, f => .TempStore bs k (fs ++ [f])
  | _ + 1, .Stored bs fs n, f => .Stored bs (fs ++ [f]) n
  | fuel + 1, .Join l r lk rk el, f =>
      let lbs := l.bindings_before_eliminate
      let rbs := r.bindings_before_eliminate
      let res := pushList (filterGo fuel) lbs rbs f.to_conjunction (l, r, [])
      let joined : RelAlgebra := .Join res.1 res.2.1 lk rk el
      if res.2.2.isEmpty then joined else .Filter joined res.2.2 []

/-- `RelAlgebra::filter`: push a new filter expression down as far as
structurally valid (see `filterGo`).  Total because `Expr::bindings` in the
model is total, matching the fact that the source's only failure source
there is expression traversal. -/
def RelAlgebra.filter (r : RelAlgebra) (f : Expr) : RelAlgebra :=
  filterGo (joinCount r + 1) r f

/-- The push-down filters of a `TempStore` right child, as consulted by
`InnerJoin::do_eliminate_temp_vars` (a `Stored` right child's filters are
not consulted there). -/
def tempStoreFilters : RelAlgebra → List Expr
  | .TempStore _ _ fs => fs
  | _ => []

/-- `RelAlgebra::eliminate_temp_vars` / the `do_eliminate_temp_vars` family,
as a pure bottom-up rewrite: each eliminating node inserts its dead bindings
into its `to_eliminate` set (computed before recursing, as in the source,
where `self.bindings()` is read before the children are visited) and then
recurses with the appropriately extended needed set. -/
def RelAlgebra.eliminate_temp_vars : RelAlgebra → SymSet → RelAlgebra
  | .Fixed bs d el, used => .Fixed bs d (insertNotUsed el bs used)
  | .TempStore bs k fs, _ => .TempStore bs k fs
  | .Stored bs fs n, _ => .Stored bs fs n
  | .Join l r lk rk el, used =>
      let el' := insertNotUsed el
        ((RelAlgebra.Join l r lk rk el).bindings_before_eliminate) used
      let leftNeeded := insertAll (insertAll used lk)
        (Expr.bindingsListMany (tempStoreFilters r))
      let rightNeeded := insertAll used rk
      .Join (l.eliminate_temp_vars leftNeeded) (r.eliminate_temp_vars rightNeeded)
        lk rk el'
  | .Reorder rel no, used => .Reorder (rel.eliminate_temp_vars used) no
  | .Filter p fs el, used =>
      let el' := insertNotUsed el p.bindings_before_eliminate used
      let nxt := insertAll used (Expr.bindingsListMany fs)
      .Filter (p.eliminate_temp_vars nxt) fs el'
  | .Unification p b e m el, used =>
      let el' := insertNotUsed el p.bindings_before_eliminate used
      let nxt := insertAll used e.bindingsList
      .Unification (p.eliminate_temp_vars nxt) b e m el'

/-- The compile-time error values of `compile.rs` (each is a struct local to
its raising site in the source; spans dropped).  `Unimplemented` models the
`todo!()` on negated atoms and `Panicked` the `unwrap` of
`ret_vars_set.difference(&cur_ret_set).next()`. -/
inductive CompileErr where
  | RuleNotFound (name : String)
  | ArityMismatch (name : String) (required : Nat) (given : Nat)
  | UnboundSymbolInRuleHead (name : Symbol)
  | StoredRelationNotFound (name : String)
  | RelNameConflict (name : String)
  | StoreRelationConflict (name : String)
  | Unimplemented
  | Panicked
deriving DecidableEq

/-- `ColType` (static schema metadata; carried but never inspected by plan
construction). -/
inductive ColType where
  | Any
  | Bool
  | Int
  | Float
  | String
  | Bytes
  | Uuid
  | List (eltype : ColType) (len : Option Nat)
  | Validity
  | Json

/-- `NullableColType`. -/
structure NullableColType where
  coltype : ColType
  nullable : Bool

/-- `ColumnDef` (the `typing`/`default_gen` fields are schema metadata the
compiler core never reads). -/
structure ColumnDef where
  name : String
  typing : NullableColType
  default_gen : Option Expr

/-- `CompiledRelationHandle`: the registry's per-relation metadata; `id` is a
`u16` and `arity` a `u8` in the source, modelled as `Nat` holding the
truncated value. -/
structure CompiledRelationHandle where
  id : Nat
  name : String
  arity : Nat
  keys : List ColumnDef
  non_keys : List ColumnDef

/-- The `Compiler` struct: `compiled_relations` is the `BTreeMap` registry
mutated by `create_relation`; `relations`, `rules` and `fixed_rules` are the
auxiliary maps of the struct, which no code in the sources ever inserts
into. -/
structure Compiler where
  compiled_relations : List (String × CompiledRelationHandle)
  fixed_rules : List Nat
  relations : List (String × Nat)
  rules : List (String × Nat)

/-- `Compiler::new`. -/
def Compiler.new : Compiler :=
  ⟨[], [], [], []⟩

/-- `Compiler::relation_exists`: consults the `relations` map (not the
`compiled_relations` registry). -/
def Compiler.relation_exists (c : Compiler) (name : String) : Bool :=
  (c.relations.lookup name).isSome

/-- `Compiler::get_relation`: looks up the `compiled_relations` registry. -/
def Compiler.get_relation (c : Compiler) (name : String) :
    Except CompileErr CompiledRelationHandle :=
  match c.compiled_relations.lookup name with
  | some h => .ok h
  | none => .error (.StoredRelationNotFound name)

/-- `Compiler::create_relation`: fails on a name already present in
`compiled_relations`; assigns `compiled_relations.len()` (as `u16`) as the
id and registers a handle with empty key/non-key column lists. -/
def Compiler.create_relation (c : Compiler) (name : String) (arity : Nat) :
    Except CompileErr (Compiler × CompiledRelationHandle) :=
  if (c.compiled_relations.lookup name).isSome then
    .error (.RelNameConflict name)
  else
    let meta : CompiledRelationHandle :=
      ⟨c.compiled_relations.length % 65536, name, arity, [], []⟩
    .ok ({ c with compiled_relations := c.compiled_relations ++ [(name, meta)] }, meta)

/-- Modelled from the spec: the atoms of a magic-sets-rewritten rule body
(`MagicAtom` of the absent `compile/program.rs`), with the fields the
compiler reads (name, argument variables, and for unifications the bound
variable, expression and one-to-many flag). -/
inductive MagicAtom where
  | Rule (name : MagicSymbol) (args : List Symbol)
  | Relation (name : String) (args : List Symbol)
  | NegatedRule (name : MagicSymbol) (args : List Symbol)
  | NegatedRelation (name : String) (args : List Symbol)
  | Predicate (e : Expr)
  | Unification (binding : Symbol) (expr : Expr) (one_many_unif : Bool)

/-- Modelled from the spec: a magic-rewritten inline rule — its declared
head variables and ordered body atoms (aggregations are irrelevant to plan
construction). -/
structure MagicInlineRule where
  head : List Symbol
  body : List MagicAtom

/-- The name generated by the `gen_symb` closure for serial id `k`:
`format!("**{serial_id}")`. -/
def synName (k : Nat) : Symbol :=
  "**" ++ Nat.repr k

/-- The running state of the rule-body fold: the accumulated plan, the set
of variables seen so far, and the synthetic-name counter. -/
structure CompState where
  ret : RelAlgebra
  seen : SymSet
  serial : Nat

/-- The per-argument loop shared by the rule- and relation-application atom
cases: a variable already seen becomes a join-key pair (original seen
variable paired with a fresh synthetic stand-in that also becomes the
right-hand binding); an unseen variable becomes a new right-hand binding
and is marked seen.  Returns `(prev_joiner_vars, right_joiner_vars,
right_vars, seen', serial')`.  The source's `Relation` case additionally
accumulates `right_joiner_vars_pos`, `right_joiner_vars_pos_rev` and
`join_indices`, all of which are dead locals there (never passed on). -/
def processArgs (seen : SymSet) (serial : Nat) :
    List Symbol → List Symbol × List Symbol × List Symbol × SymSet × Nat
  | [] => ([], [], [], seen, serial)
  | var :: rest =>
      if seen.contains var then
        let rk := synName serial
        let res := processArgs seen (serial + 1) rest
        (var :: res.1, rk :: res.2.1, rk :: res.2.2.1, res.2.2.2.1, res.2.2.2.2)
      else
        let res := processArgs (setInsert seen var) serial rest
        (res.1, res.2.1, var :: res.2.2.1, res.2.2.2.1, res.2.2.2.2)

/-- One iteration of the atom loop of `Compiler::compile_magic_rule_body`. -/
def Compiler.processAtom (c : Compiler) (store_arities : List (MagicSymbol × Nat))
    (st : CompState) : MagicAtom → Except CompileErr CompState
  | .Rule name args =>
      match store_arities.lookup name with
      | none => .error (.RuleNotFound name.symbolName)
      | some store_arity =>
          if store_arity = args.length then
            let res := processArgs st.seen st.serial args
            let right := RelAlgebra.derived res.2.2.1 name
            .ok ⟨st.ret.join right res.1 res.2.1, res.2.2.2.1, res.2.2.2.2⟩
          else
            .error (.ArityMismatch name.symbolName store_arity args.length)
  | .Relation name args => do
      let store ← c.get_relation name
      if store.arity = args.length then
        let res := processArgs st.seen st.serial args
        let right := RelAlgebra.relationScan res.2.2.1 store.name
        .ok ⟨st.ret.join right res.1 res.2.1, res.2.2.2.1, res.2.2.2.2⟩
      else
        .error (.ArityMismatch name store.arity args.length)
  | .Predicate p => .ok ⟨st.ret.filter p, st.seen, st.serial⟩
  | .Unification b e one_many =>
      if st.seen.contains b then
        let expr := if one_many then
            Expr.build_is_in [Expr.binding b none, e]
          else
            Expr.build_equate [Expr.binding b none, e]
        .ok ⟨st.ret.filter expr, st.seen, st.serial⟩
      else
        .ok ⟨st.ret.unify b e one_many, setInsert st.seen b, st.serial⟩
  | .NegatedRule _ _ => .error .Unimplemented
  | .NegatedRelation _ _ => .error .Unimplemented

/-- The fold of `compile_magic_rule_body` over the rule body's atoms. -/
def Compiler.foldAtoms (c : Compiler) (store_arities : List (MagicSymbol × Nat)) :
    CompState → List MagicAtom → Except CompileErr CompState
  | st, [] => .ok st
  | st, a :: rest => do
      let st' ← c.processAtom store_arities st a
      c.foldAtoms store_arities st' rest

/-- The tail of `compile_magic_rule_body` after the atom fold: eliminate
dead bindings against the head-variable set; if the exposed binding set
differs from the head set, recover by a cartesian join against a fresh unit
node and re-eliminate; if it still differs, fail with
`UnboundSymbolInRuleHead` on a variable of the difference (head minus
exposed — the source unwraps the difference iterator's first element, so an
empty difference with unequal sets would panic); finally, wrap in a
`Reorder` when the exposed order differs from the declared head order. -/
def finalizeStage2 (ret2 : RelAlgebra) (ret_vars : List Symbol) :
    Except CompileErr RelAlgebra :=
  let cur := ret2.bindings_after_eliminate
  if setEqb cur ret_vars then
    if ret_vars = cur then .ok ret2 else .ok (ret2.reorder ret_vars)
  else
    match ret_vars.filter (fun v => !cur.contains v) with
    | v :: _ => .error (.UnboundSymbolInRuleHead v)
    | [] => .error .Panicked

/-- See `finalizeStage2` for the shared tail; when no recovery is needed the
re-computed set comparison there repeats the one made here, exactly as the
source recomputes `cur_ret_set` after the recovery block. -/
def finalizeRet (ret0 : RelAlgebra) (ret_vars : List Symbol) :
    Except CompileErr RelAlgebra :=
  let ret1 := ret0.eliminate_temp_vars ret_vars
  if setEqb ret1.bindings_after_eliminate ret_vars then
    finalizeStage2 ret1 ret_vars
  else
    finalizeStage2 ((ret1.cartesian_join RelAlgebra.unitRA).eliminate_temp_vars ret_vars)
      ret_vars

/-- `Compiler::compile_magic_rule_body`: fold the atoms from the unit plan
with an empty seen set and serial counter 0, then finalize against the
declared head variables `ret_vars`. -/
def Compiler.compile_magic_rule_body (c : Compiler) (rule : MagicInlineRule)
    (store_arities : List (MagicSymbol × Nat)) (ret_vars : List Symbol) :
    Except CompileErr RelAlgebra := do
  let st ← c.foldAtoms store_arities ⟨RelAlgebra.unitRA, [], 0⟩ rule.body
  finalizeRet st.ret ret_vars

/-- Modelled from the spec: `RelationOp` (absent `compile/program.rs`) — the
output-relation operations a query may request. -/
inductive RelationOp where
  | Create
  | Replace
  | Put
  | Rm
  | Ensure
deriving DecidableEq

/-- Modelled from the spec: the part of a query's `store_relation` output
option that `compile_query` reads — the target relation's name and its
metadata's key-column count. -/
structure StoreRelationMeta where
  name : String
  keys_len : Nat

/-- The mutation-check prelude of `Compiler::compile_query`: when the query
requests `RelationOp::Create`, ensure `relation_exists` is false for the
target name (else `StoreRelationConflict`) and then `create_relation` with
arity `meta.metadata.keys.len() as u8`.  The rest of `compile_query`
(parsing, normalization, stratification, magic-set rewriting) lives in
source files absent from the repository. -/
def Compiler.compile_query_store_relation_check (c : Compiler)
    (store_relation : Option (StoreRelationMeta × RelationOp)) :
    Except CompileErr Compiler :=
  match store_relation with
  | some (meta, op) =>
      if op = RelationOp.Create then
        if c.relation_exists meta.name then
          .error (.StoreRelationConflict meta.name)
        else do
          let res ← c.create_relation meta.name (meta.keys_len % 256)
          .ok res.1
      else .ok c
  | none => .ok c

/-- `Joiner::join_indices`: positions of the join keys inside the two
binding lists.  The source collects each binding list into a `BTreeMap`
keyed by symbol (later duplicates overwrite earlier ones, hence the *last*
index wins) and unwraps the lookups; a missing key, which would panic, is
modelled as `none`. -/
def lastIndexOf (bs : List Symbol) (x : Symbol) : Option Nat :=
  bs.enum.foldl (fun acc p => if p.2 == x then some p.1 else acc) none

/-- The pair loop of `Joiner::join_indices`: resolve each zipped key pair
against the binding maps, accumulating the two position vectors. -/
def join_indices_go (left_bindings right_bindings : List Symbol) :
    List (Symbol × Symbol) → Option (List Nat × List Nat)
  | [] => some ([], [])
  | (lkey, rkey) :: rest =>
      match lastIndexOf left_bindings lkey, lastIndexOf right_bindings rkey,
          join_indices_go left_bindings right_bindings rest with
      | some lp, some rp, some res => some (lp :: res.1, rp :: res.2)
      | _, _, _ => none

/-- `Joiner::join_indices` proper: the source zips `left_keys` with
`right_keys` and resolves each pair. -/
def join_indices (left_keys right_keys : List Symbol)
    (left_bindings right_bindings : List Symbol) : Option (List Nat × List Nat) :=
  join_indices_go left_bindings right_bindings (left_keys.zip right_keys)

/-- `join_is_prefix`: the right-side key positions, sorted, must equal the
contiguous range `0..n`. -/
def join_is_prefix_check (right_join_indices : List Nat) : Bool :=
  (right_join_indices.mergeSort (fun a b => a ≤ b)) == List.range right_join_indices.length

/-- `InlineFixedRA::join_type`. -/
def fixedJoinType (data : List (List DataValue)) : String :=
  if data.isEmpty then "null_join"
  else if data.length = 1 then "singleton_join"
  else "fixed_join"

/-- `InnerJoin::join_type`, on a join's fields: classification by the right
child's shape; a `Reorder` right child panics in the source (`none` here),
as does a failing `join_indices` lookup. -/
def join_type (left right : RelAlgebra) (left_keys right_keys : List Symbol) :
    Option String :=
  match right with
  | .Fixed _ data _ => some (fixedJoinType data)
  | .TempStore _ _ _ =>
      match join_indices left_keys right_keys
        left.bindings_after_eliminate right.bindings_after_eliminate with
      | some idx =>
          some (if join_is_prefix_check idx.2 then "mem_prefix_join" else "mem_mat_join")
      | none => none
  | .Stored _ _ _ =>
      match join_indices left_keys right_keys
        left.bindings_after_eliminate right.bindings_after_eliminate with
      | some idx =>
          some (if join_is_prefix_check idx.2 then "stored_prefix_join" else "stored_mat_join")
      | none => none
  | .Join _ _ _ _ _ => some "generic_mat_join"
  | .Filter _ _ _ => some "generic_mat_join"
  | .Unification _ _ _ _ _ => some "generic_mat_join"
  | .Reorder _ _ => none

/-! Basic lemmas about the set model. -/

theorem contains_iff (l : List Symbol) (x : Symbol) :
    l.contains x = true ↔ x ∈ l := by
  simp [List.contains, List.elem_iff]

@[simp] theorem mem_setInsert {s : SymSet} {x y : Symbol} :
    y ∈ setInsert s x ↔ y = x ∨ y ∈ s := by
  unfold setInsert
  by_cases h : x ∈ s
  · rw [if_pos ((contains_iff s x).2 h)]
    constructor
    · exact Or.inr
    · rintro (he | hy)
      · exact he ▸ h
      · exact hy
  · rw [if_neg (fun hc => h ((contains_iff s x).1 hc))]
    exact List.mem_cons

theorem insertAll_cons (s : SymSet) (a : Symbol) (xs : List Symbol) :
    insertAll s (a :: xs) = insertAll (setInsert s a) xs := rfl

theorem mem_insertAll {xs : List Symbol} :
    ∀ {s : SymSet} {y : Symbol}, y ∈ insertAll s xs ↔ y ∈ s ∨ y ∈ xs := by
  induction xs with
  | nil => simp [insertAll]
  | cons a rest ih =>
      intro s y
      rw [insertAll_cons, ih, mem_setInsert]
      simp [List.mem_cons]
      tauto

theorem insertNotUsed_cons (el : SymSet) (a : Symbol) (bs : List Symbol)
    (used : SymSet) :
    insertNotUsed el (a :: bs) used
      = insertNotUsed (if used.contains a then el else setInsert el a) bs used := rfl

theorem mem_insertNotUsed {bs : List Symbol} :
    ∀ {el used : SymSet} {y : Symbol},
      y ∈ insertNotUsed el bs used ↔ y ∈ el ∨ (y ∈ bs ∧ y ∉ used) := by
  induction bs with
  | nil =>
      intro el used y
      simp [insertNotUsed]
  | cons a rest ih =>
      intro el used y
      rw [insertNotUsed_cons]
      by_cases h : a ∈ used
      · rw [if_pos ((contains_iff used a).2 h), ih]
        constructor
        · rintro (he | hb)
          · exact Or.inl he
          · exact Or.inr ⟨List.mem_cons_of_mem _ hb.1, hb.2⟩
        · rintro (he | ⟨hmem, hnu⟩)
          · exact Or.inl he
          · rcases List.mem_cons.1 hmem with he | hb
            · exact absurd (he ▸ h) hnu
            · exact Or.inr ⟨hb, hnu⟩
      · rw [if_neg (fun hc => h ((contains_iff used a).1 hc)), ih, mem_setInsert]
        constructor
        · rintro ((he | he) | hb)
          · exact Or.inr ⟨he ▸ List.mem_cons_self _ _, he ▸ h⟩
          · exact Or.inl he
          · exact Or.inr ⟨List.mem_cons_of_mem _ hb.1, hb.2⟩
        · rintro (he | ⟨hmem, hnu⟩)
          · exact Or.inl (Or.inr he)
          · rcases List.mem_cons.1 hmem with he | hb
            · exact Or.inl (Or.inl he)
            · exact Or.inr ⟨hb, hnu⟩

theorem subsetB_iff {a b : SymSet} :
    subsetB a b = true ↔ ∀ x ∈ a, x ∈ b := by
  simp [subsetB, List.all_eq_true, contains_iff]

theorem setEqb_iff {a b : SymSet} :
    setEqb a b = true ↔ (∀ x, x ∈ a ↔ x ∈ b) := by
  simp only [setEqb, Bool.and_eq_true, subsetB_iff]
  constructor
  · rintro ⟨h1, h2⟩ x; exact ⟨h1 x, h2 x⟩
  · intro h; exact ⟨fun x hx => (h x).1 hx, fun x hx => (h x).2 hx⟩

/-! Unfolding lemmas for the binding queries, per constructor. -/

@[simp] theorem after_Fixed (bs : List Symbol) (d : List (List DataValue)) (el : SymSet) :
    (RelAlgebra.Fixed bs d el).bindings_after_eliminate
      = bs.filter (fun x => !el.contains x) := rfl

@[simp] theorem after_TempStore (bs : List Symbol) (k : MagicSymbol) (fs : List Expr) :
    (RelAlgebra.TempStore bs k fs).bindings_after_eliminate = bs := rfl

@[simp] theorem after_Stored (bs : List Symbol) (fs : List Expr) (n : String) :
    (RelAlgebra.Stored bs fs n).bindings_after_eliminate = bs := rfl

@[simp] theorem after_Reorder (rel : RelAlgebra) (no : List Symbol) :
    (RelAlgebra.Reorder rel no).bindings_after_eliminate = no := rfl

@[simp] theorem after_Join (l r : RelAlgebra) (lk rk : List Symbol) (el : SymSet) :
    (RelAlgebra.Join l r lk rk el).bindings_after_eliminate
      = (l.bindings_after_eliminate ++ r.bindings_after_eliminate).filter
          (fun x => !el.contains x) := rfl

@[simp] theorem after_Filter (p : RelAlgebra) (fs : List Expr) (el : SymSet) :
    (RelAlgebra.Filter p fs el).bindings_after_eliminate
      = p.bindings_after_eliminate.filter (fun x => !el.contains x) := rfl

@[simp] theorem after_Unification (p : RelAlgebra) (b : Symbol) (e : Expr)
    (m : Bool) (el : SymSet) :
    (RelAlgebra.Unification p b e m el).bindings_after_eliminate
      = (p.bindings_after_eliminate ++ [b]).filter (fun x => !el.contains x) := rfl

theorem before_Join (l r : RelAlgebra) (lk rk : List Symbol) (el : SymSet) :
    (RelAlgebra.Join l r lk rk el).bindings_before_eliminate
      = l.bindings_after_eliminate ++ r.bindings_after_eliminate := rfl

theorem before_Filter (p : RelAlgebra) (fs : List Expr) (el : SymSet) :
    (RelAlgebra.Filter p fs el).bindings_before_eliminate
      = p.bindings_after_eliminate := rfl

theorem before_Unification (p : RelAlgebra) (b : Symbol) (e : Expr)
    (m : Bool) (el : SymSet) :
    (RelAlgebra.Unification p b e m el).bindings_before_eliminate
      = p.bindings_after_eliminate ++ [b] := rfl

/-! Injectivity of the generated synthetic names `**0`, `**1`, …: the decimal
printer of `Nat` is injective, hence so is `synName`.  `isSynth` recognises
the shape of a generated name; variables arriving from the parser never have
this shape. -/

/-- Decimal value of a digit-character list; left inverse of the decimal
printing used by `Nat.repr`. -/
def digitsVal (cs : List Char) : Nat :=
  cs.foldl (fun a c => a * 10 + (c.toNat - 48)) 0

theorem digitChar_val : ∀ d, d < 10 → (Nat.digitChar d).toNat - 48 = d := by decide

theorem toDigitsCore_acc : ∀ (fuel n : Nat) (ds : List Char),
    Nat.toDigitsCore 10 fuel n ds = Nat.toDigitsCore 10 fuel n [] ++ ds := by
  intro fuel
  induction fuel with
  | zero => intro n ds; rfl
  | succ fuel ih =>
      intro n ds
      show (if n / 10 = 0 then _ else _) = (if n / 10 = 0 then _ else _) ++ ds
      by_cases h : n / 10 = 0
      · rw [if_pos h, if_pos h]; rfl
      · rw [if_neg h, if_neg h, ih (n / 10) (Nat.digitChar (n % 10) :: ds),
          ih (n / 10) [Nat.digitChar (n % 10)], List.append_assoc]
        rfl

theorem digitsVal_append_one (xs : List Char) (c : Char) :
    digitsVal (xs ++ [c]) = digitsVal xs * 10 + (c.toNat - 48) := by
  simp [digitsVal, List.foldl_append]

theorem digitsVal_toDigitsCore : ∀ (fuel n : Nat), n < fuel →
    digitsVal (Nat.toDigitsCore 10 fuel n []) = n := by
  intro fuel
  induction fuel with
  | zero => intro n h; exact absurd h (Nat.not_lt_zero n)
  | succ fuel ih =>
      intro n h
      show digitsVal (if n / 10 = 0 then _ else _) = n
      by_cases h0 : n / 10 = 0
      · rw [if_pos h0]
        have hlt : n < 10 := (Nat.div_eq_zero_iff (by omega)).1 h0
        have : digitsVal [Nat.digitChar (n % 10)] = (Nat.digitChar (n % 10)).toNat - 48 := by
          simp [digitsVal]
        rw [this, digitChar_val _ (Nat.mod_lt n (by omega)), Nat.mod_eq_of_lt hlt]
      · rw [if_neg h0, toDigitsCore_acc, digitsVal_append_one,
          digitChar_val _ (Nat.mod_lt n (by omega))]
        have hn : 0 < n := by
          rcases Nat.eq_zero_or_pos n with h' | h'
          · subst h'; exact absurd (by decide : (0 : Nat) / 10 = 0) h0
          · exact h'
        have : n / 10 < fuel :=
          Nat.lt_of_lt_of_le (Nat.div_lt_self hn (by omega)) (Nat.le_of_lt_succ h)
        rw [ih (n / 10) this]
        omega

theorem natRepr_inj {m n : Nat} (h : Nat.repr m = Nat.repr n) : m = n := by
  have hd : Nat.toDigits 10 m = Nat.toDigits 10 n := by
    have := congrArg String.data h
    simpa [Nat.repr, List.asString] using this
  have hm := digitsVal_toDigitsCore (m + 1) m (Nat.lt_succ_self m)
  have hn := digitsVal_toDigitsCore (n + 1) n (Nat.lt_succ_self n)
  rw [show Nat.toDigits 10 m = Nat.toDigitsCore 10 (m + 1) m [] from rfl] at hd
  rw [show Nat.toDigits 10 n = Nat.toDigitsCore 10 (n + 1) n [] from rfl] at hd
  rw [← hm, ← hn, hd]

theorem synName_inj {j k : Nat} (h : synName j = synName k) : j = k := by
  have hd := congrArg String.data h
  simp only [synName, String.data_append] at hd
  have : Nat.repr j = Nat.repr k := by
    have := List.append_cancel_left hd
    exact congrArg List.asString this
  exact natRepr_inj this

/-- Recognises the shape of a generated synthetic name: the name starts with
two `*` characters. -/
def isSynth (s : Symbol) : Bool :=
  s.data.take 2 == ['*', '*']

theorem isSynth_synName (k : Nat) : isSynth (synName k) = true := by
  simp [isSynth, synName, String.data_append]

theorem ne_synName_of_not_isSynth {v : Symbol} (h : isSynth v = false) (k : Nat) :
    v ≠ synName k := by
  intro he
  rw [he, isSynth_synName] at h
  cases h

/-! Properties of `RelAlgebra.filter`: pushing a filter never changes the
exposed bindings, never yields a `Reorder` at the top, and preserves the
no-duplicate-bindings invariant. -/

/-- The no-duplicate-bindings invariant of claim C2, in the structural form
used for the induction: at every node the pre-elimination binding list is
duplicate-free (for a `Join`, that list is the concatenation of the
children's exposed bindings, so this includes their disjointness). -/
def nodupTree : RelAlgebra → Prop
  | .Fixed bs _ _ => bs.Nodup
  | .TempStore bs _ _ => bs.Nodup
  | .Stored bs _ _ => bs.Nodup
  | .Join l r _ _ _ =>
      (l.bindings_after_eliminate ++ r.bindings_after_eliminate).Nodup
        ∧ nodupTree l ∧ nodupTree r
  | .Reorder rel no => no.Nodup ∧ nodupTree rel
  | .Filter p _ _ => nodupTree p
  | .Unification p b _ _ _ => b ∉ p.bindings_after_eliminate ∧ nodupTree p

theorem nodupTree_after : ∀ r : RelAlgebra, nodupTree r →
    r.bindings_after_eliminate.Nodup
  | .Fixed bs d el, h => List.Nodup.filter _ h
  | .TempStore bs k fs, h => h
  | .Stored bs fs n, h => h
  | .Join l r lk rk el, h => List.Nodup.filter _ h.1
  | .Reorder rel no, h => h.1
  | .Filter p fs el, h => List.Nodup.filter _ (nodupTree_after p h)
  | .Unification p b e m el, h => by
      rw [after_Unification]
      exact List.Nodup.filter _
        ((List.nodup_append).2 ⟨nodupTree_after p h.2, List.nodup_singleton b,
          by
            intro x hx hb
            rcases List.mem_singleton.1 hb with rfl
            exact h.1 hx⟩)

theorem pushList_cons (push : RelAlgebra → Expr → RelAlgebra)
    (lbs rbs : List Symbol) (c : Expr) (cs : List Expr)
    (a b : RelAlgebra) (rem : List Expr) :
    pushList push lbs rbs (c :: cs) (a, b, rem)
      = if subsetB c.bindingsList lbs then
          pushList push lbs rbs cs (push a c, b, rem)
        else if subsetB c.bindingsList rbs then
          pushList push lbs rbs cs (a, push b c, rem)
        else pushList push lbs rbs cs (a, b, rem ++ [c]) := rfl

/-- The three components of the conjunct loop: with a push function that
preserves exposed bindings, the accumulated children keep their exposed
bindings, and the remaining clauses are exactly those whose footprint fits
neither side. -/
theorem pushList_spec (push : RelAlgebra → Expr → RelAlgebra)
    (Hafter : ∀ x c, (push x c).bindings_after_eliminate = x.bindings_after_eliminate)
    (lbs rbs : List Symbol) :
    ∀ (cs : List Expr) (a b : RelAlgebra) (rem : List Expr),
      (pushList push lbs rbs cs (a, b, rem)).1.bindings_after_eliminate
          = a.bindings_after_eliminate
        ∧ (pushList push lbs rbs cs (a, b, rem)).2.1.bindings_after_eliminate
          = b.bindings_after_eliminate
        ∧ (pushList push lbs rbs cs (a, b, rem)).2.2
          = rem ++ cs.filter (fun c =>
              !subsetB c.bindingsList lbs && !subsetB c.bindingsList rbs) := by
  intro cs
  induction cs with
  | nil => intro a b rem; simp [pushList]
  | cons c rest ih =>
      intro a b rem
      rw [pushList_cons]
      by_cases h1 : subsetB c.bindingsList lbs = true
      · rw [if_pos h1]
        rcases ih (push a c) b rem with ⟨e1, e2, e3⟩
        refine ⟨?_, e2, ?_⟩
        · rw [e1, Hafter]
        · rw [e3, List.filter_cons_of_neg (by simp [h1])]
      · by_cases h2 : subsetB c.bindingsList rbs = true
        · rw [if_neg h1, if_pos h2]
          rcases ih a (push b c) rem with ⟨e1, e2, e3⟩
          refine ⟨e1, ?_, ?_⟩
          · rw [e2, Hafter]
          · rw [e3, List.filter_cons_of_neg (by simp [h2])]
        · rw [if_neg h1, if_neg h2]
          rcases ih a b (rem ++ [c]) with ⟨e1, e2, e3⟩
          refine ⟨e1, e2, ?_⟩
          rw [e3, List.filter_cons_of_pos (by simp [h1, h2]), List.append_assoc]
          rfl

theorem filterGo_after : ∀ (fuel : Nat) (r : RelAlgebra) (f : Expr),
    (filterGo fuel r f).bindings_after_eliminate = r.bindings_after_eliminate := by
  intro fuel
  induction fuel with
  | zero =>
      intro r f
      show (RelAlgebra.Filter r [f] []).bindings_after_eliminate = _
      simp [List.contains]
  | succ fuel ih =>
      intro r f
      cases r with
      | Fixed bs d el => simp [filterGo, List.contains]
      | Reorder rel no => simp [filterGo, List.contains]
      | Unification p b e m el => simp [filterGo, List.contains]
      | Filter p fs el => rfl
      | TempStore bs k fs => rfl
      | Stored bs fs n => rfl
      | Join l rr lk rk el =>
          show (if _ then _ else _ : RelAlgebra).bindings_after_eliminate = _
          rcases pushList_spec (filterGo fuel) ih
              l.bindings_before_eliminate rr.bindings_before_eliminate
              f.to_conjunction l rr [] with ⟨e1, e2, _⟩
          by_cases h : (pushList (filterGo fuel) l.bindings_before_eliminate
              rr.bindings_before_eliminate f.to_conjunction (l, rr, [])).2.2.isEmpty = true
          · rw [if_pos h, after_Join, e1, e2]
            rfl
          · rw [if_neg h, after_Filter, after_Join, e1, e2]
            simp [List.contains]

theorem filter_after (r : RelAlgebra) (f : Expr) :
    (r.filter f).bindings_after_eliminate = r.bindings_after_eliminate :=
  filterGo_after _ r f

theorem nodupTree_filterGo : ∀ (fuel : Nat) (r : RelAlgebra) (f : Expr),
    nodupTree r → nodupTree (filterGo fuel r f) := by
  intro fuel
  induction fuel with
  | zero => intro r f h; exact h
  | succ fuel ih =>
      intro r f h
      cases r with
      | Fixed bs d el => exact h
      | Reorder rel no => exact h
      | Unification p b e m el => exact h
      | Filter p fs el => exact h
      | TempStore bs k fs => exact h
      | Stored bs fs n => exact h
      | Join l rr lk rk el =>
          show nodupTree (if _ then _ else _ : RelAlgebra)
          rcases pushList_spec (filterGo fuel) (filterGo_after fuel)
              l.bindings_before_eliminate rr.bindings_before_eliminate
              f.to_conjunction l rr [] with ⟨e1, e2, _⟩
          have hl : nodupTree (pushList (filterGo fuel) l.bindings_before_eliminate
              rr.bindings_before_eliminate f.to_conjunction (l, rr, [])).1 := by
            have : ∀ (cs : List Expr) (a b : RelAlgebra) (rem : List Expr),
                nodupTree a → nodupTree b →
                nodupTree (pushList (filterGo fuel) l.bindings_before_eliminate
                  rr.bindings_before_eliminate cs (a, b, rem)).1
                ∧ nodupTree (pushList (filterGo fuel) l.bindings_before_eliminate
                  rr.bindings_before_eliminate cs (a, b, rem)).2.1 := by
              intro cs
              induction cs with
              | nil => intro a b rem ha hb; exact ⟨ha, hb⟩
              | cons c rest ih2 =>
                  intro a b rem ha hb
                  rw [pushList_cons]
                  by_cases h1 : subsetB c.bindingsList l.bindings_before_eliminate = true
                  · rw [if_pos h1]
                    exact ih2 (filterGo fuel a c) b rem (ih a c ha) hb
                  · by_cases h2 : subsetB c.bindingsList rr.bindings_before_eliminate = true
                    · rw [if_neg h1, if_pos h2]
                      exact ih2 a (filterGo fuel b c) rem ha (ih b c hb)
                    · rw [if_neg h1, if_neg h2]
                      exact ih2 a b (rem ++ [c]) ha hb
            exact (this f.to_conjunction l rr [] h.2.1 h.2.2).1
          have hr : nodupTree (pushList (filterGo fuel) l.bindings_before_eliminate
              rr.bindings_before_eliminate f.to_conjunction (l, rr, [])).2.1 := by
            have : ∀ (cs : List Expr) (a b : RelAlgebra) (rem : List Expr),
                nodupTree a → nodupTree b →
                nodupTree (pushList (filterGo fuel) l.bindings_before_eliminate
                  rr.bindings_before_eliminate cs (a, b, rem)).1
                ∧ nodupTree (pushList (filterGo fuel) l.bindings_before_eliminate
                  rr.bindings_before_eliminate cs (a, b, rem)).2.1 := by
              intro cs
              induction cs with
              | nil => intro a b rem ha hb; exact ⟨ha, hb⟩
              | cons c rest ih2 =>
                  intro a b rem ha hb
                  rw [pushList_cons]
                  by_cases h1 : subsetB c.bindingsList l.bindings_before_eliminate = true
                  · rw [if_pos h1]
                    exact ih2 (filterGo fuel a c) b rem (ih a c ha) hb
                  · by_cases h2 : subsetB c.bindingsList rr.bindings_before_eliminate = true
                    · rw [if_neg h1, if_pos h2]
                      exact ih2 a (filterGo fuel b c) rem ha (ih b c hb)
                    · rw [if_neg h1, if_neg h2]
                      exact ih2 a b (rem ++ [c]) ha hb
            exact (this f.to_conjunction l rr [] h.2.1 h.2.2).2
          have hjoined : nodupTree (RelAlgebra.Join
              (pushList (filterGo fuel) l.bindings_before_eliminate
                rr.bindings_before_eliminate f.to_conjunction (l, rr, [])).1
              (pushList (filterGo fuel) l.bindings_before_eliminate
                rr.bindings_before_eliminate f.to_conjunction (l, rr, [])).2.1
              lk rk el) := by
            refine ⟨?_, hl, hr⟩
            rw [e1, e2]
            exact h.1
          by_cases hrem : (pushList (filterGo fuel) l.bindings_before_eliminate
              rr.bindings_before_eliminate f.to_conjunction (l, rr, [])).2.2.isEmpty = true
          · show nodupTree (if _ then _ else _ : RelAlgebra)
            rw [if_pos hrem]
            exact hjoined
          · show nodupTree (if _ then _ else _ : RelAlgebra)
            rw [if_neg hrem]
            exact hjoined

theorem nodupTree_filter (r : RelAlgebra) (f : Expr) (h : nodupTree r) :
    nodupTree (r.filter f) :=
  nodupTree_filterGo _ r f h

/-! Unfolding equations and structural properties of the elimination pass. -/

theorem eliminate_Fixed (bs : List Symbol) (d : List (List DataValue))
    (el : SymSet) (u : SymSet) :
    (RelAlgebra.Fixed bs d el).eliminate_temp_vars u
      = .Fixed bs d (insertNotUsed el bs u) := rfl

theorem eliminate_TempStore (bs : List Symbol) (k : MagicSymbol) (fs : List Expr)
    (u : SymSet) :
    (RelAlgebra.TempStore bs k fs).eliminate_temp_vars u = .TempStore bs k fs := rfl

theorem eliminate_Stored (bs : List Symbol) (fs : List Expr) (n : String)
    (u : SymSet) :
    (RelAlgebra.Stored bs fs n).eliminate_temp_vars u = .Stored bs fs n := rfl

theorem eliminate_Join (l r : RelAlgebra) (lk rk : List Symbol) (el : SymSet)
    (u : SymSet) :
    (RelAlgebra.Join l r lk rk el).eliminate_temp_vars u
      = .Join
          (l.eliminate_temp_vars
            (insertAll (insertAll u lk) (Expr.bindingsListMany (tempStoreFilters r))))
          (r.eliminate_temp_vars (insertAll u rk))
          lk rk
          (insertNotUsed el
            ((RelAlgebra.Join l r lk rk el).bindings_before_eliminate) u) := rfl

theorem eliminate_Reorder (rel : RelAlgebra) (no : List Symbol) (u : SymSet) :
    (RelAlgebra.Reorder rel no).eliminate_temp_vars u
      = .Reorder (rel.eliminate_temp_vars u) no := rfl

theorem eliminate_Filter (p : RelAlgebra) (fs : List Expr) (el : SymSet)
    (u : SymSet) :
    (RelAlgebra.Filter p fs el).eliminate_temp_vars u
      = .Filter (p.eliminate_temp_vars (insertAll u (Expr.bindingsListMany fs))) fs
          (insertNotUsed el p.bindings_before_eliminate u) := rfl

theorem eliminate_Unification (p : RelAlgebra) (b : Symbol) (e : Expr) (m : Bool)
    (el : SymSet) (u : SymSet) :
    (RelAlgebra.Unification p b e m el).eliminate_temp_vars u
      = .Unification (p.eliminate_temp_vars (insertAll u e.bindingsList)) b e m
          (insertNotUsed el p.bindings_before_eliminate u) := rfl

/-- Filtering by the grown elimination set removes at least as much. -/
theorem filter_not_contains_sublist (bs : List Symbol) {el el' : SymSet}
    (h : ∀ x, x ∈ el → x ∈ el') :
    List.Sublist (bs.filter (fun x => !el'.contains x))
      (bs.filter (fun x => !el.contains x)) := by
  apply List.monotone_filter_right
  intro a ha
  simp only [Bool.not_eq_true'] at ha ⊢
  rcases hc : el.contains a with _ | _
  · rfl
  · rw [contains_iff] at hc
    have := (contains_iff el' a).2 (h a hc)
    rw [this] at ha
    cases ha

/-- The elimination pass only removes exposed bindings. -/
theorem eliminate_after_sublist : ∀ (r : RelAlgebra) (u : SymSet),
    List.Sublist (r.eliminate_temp_vars u).bindings_after_eliminate
      r.bindings_after_eliminate
  | .Fixed bs d el, u => by
      rw [eliminate_Fixed, after_Fixed, after_Fixed]
      exact filter_not_contains_sublist bs (fun x hx => mem_insertNotUsed.2 (Or.inl hx))
  | .TempStore bs k fs, u => List.Sublist.refl _
  | .Stored bs fs n, u => List.Sublist.refl _
  | .Join l r lk rk el, u => by
      rw [eliminate_Join, after_Join, after_Join]
      refine List.Sublist.trans
        (filter_not_contains_sublist _ (fun x hx => mem_insertNotUsed.2 (Or.inl hx)))
        (List.Sublist.filter _ ?_)
      exact List.Sublist.append (eliminate_after_sublist l _) (eliminate_after_sublist r _)
  | .Reorder rel no, u => by
      rw [eliminate_Reorder, after_Reorder, after_Reorder]
  | .Filter p fs el, u => by
      rw [eliminate_Filter, after_Filter, after_Filter]
      exact List.Sublist.trans
        (filter_not_contains_sublist _ (fun x hx => mem_insertNotUsed.2 (Or.inl hx)))
        (List.Sublist.filter _ (eliminate_after_sublist p _))
  | .Unification p b e m el, u => by
      rw [eliminate_Unification, after_Unification, after_Unification]
      refine List.Sublist.trans
        (filter_not_contains_sublist _ (fun x hx => mem_insertNotUsed.2 (Or.inl hx)))
        (List.Sublist.filter _ ?_)
      exact List.Sublist.append (eliminate_after_sublist p _) (List.Sublist.refl _)

/-- The elimination pass preserves the no-duplicate-bindings invariant. -/
theorem nodupTree_eliminate : ∀ (r : RelAlgebra) (u : SymSet),
    nodupTree r → nodupTree (r.eliminate_temp_vars u)
  | .Fixed bs d el, u, h => h
  | .TempStore bs k fs, u, h => h
  | .Stored bs fs n, u, h => h
  | .Join l r lk rk el, u, h => by
      rw [eliminate_Join]
      refine ⟨?_, nodupTree_eliminate l _ h.2.1, nodupTree_eliminate r _ h.2.2⟩
      exact List.Nodup.sublist
        (List.Sublist.append (eliminate_after_sublist l _) (eliminate_after_sublist r _))
        h.1
  | .Reorder rel no, u, h => by
      rw [eliminate_Reorder]
      exact ⟨h.1, nodupTree_eliminate rel _ h.2⟩
  | .Filter p fs el, u, h => nodupTree_eliminate p _ h
  | .Unification p b e m el, u, h => by
      rw [eliminate_Unification]
      refine ⟨?_, nodupTree_eliminate p _ h.2⟩
      intro hb
      exact h.1 (List.Sublist.subset (eliminate_after_sublist p _) hb)

/-- After eliminating a `Join` against a needed set, every exposed binding
is needed: the join's elimination set absorbs everything else. -/
theorem eliminate_join_after_subset (l r : RelAlgebra) (lk rk : List Symbol)
    (el : SymSet) (u : SymSet) :
    ∀ x ∈ ((RelAlgebra.Join l r lk rk el).eliminate_temp_vars u).bindings_after_eliminate,
      x ∈ u := by
  intro x hx
  rw [eliminate_Join, after_Join] at hx
  rcases List.mem_filter.1 hx with ⟨hmem, hflt⟩
  have hbefore : x ∈ (RelAlgebra.Join l r lk rk el).bindings_before_eliminate := by
    rw [before_Join]
    rcases List.mem_append.1 hmem with h | h
    · exact List.mem_append.2 (Or.inl (List.Sublist.subset (eliminate_after_sublist l _) h))
    · exact List.mem_append.2 (Or.inr (List.Sublist.subset (eliminate_after_sublist r _) h))
  simp only [Bool.not_eq_true'] at hflt
  by_contra hxu
  have : x ∈ insertNotUsed el
      ((RelAlgebra.Join l r lk rk el).bindings_before_eliminate) u :=
    mem_insertNotUsed.2 (Or.inr ⟨hbefore, hxu⟩)
  rw [← contains_iff] at this
  rw [hflt] at this
  cases this

/-- Whether the plan's top node is a `Reorder`. -/
def isReorderTop : RelAlgebra → Bool
  | .Reorder _ _ => true
  | _ => false

theorem isReorderTop_filterGo (fuel : Nat) (r : RelAlgebra) (f : Expr) :
    isReorderTop (filterGo fuel r f) = false := by
  cases fuel with
  | zero => rfl
  | succ fuel =>
      cases r with
      | Fixed bs d el => rfl
      | Reorder rel no => rfl
      | Unification p b e m el => rfl
      | Filter p fs el => rfl
      | TempStore bs k fs => rfl
      | Stored bs fs n => rfl
      | Join l rr lk rk el =>
          show isReorderTop (if _ then _ else _ : RelAlgebra) = false
          by_cases h : (pushList (filterGo fuel) l.bindings_before_eliminate
              rr.bindings_before_eliminate f.to_conjunction (l, rr, [])).2.2.isEmpty = true
          · rw [if_pos h]; rfl
          · rw [if_neg h]; rfl

theorem isReorderTop_eliminate (r : RelAlgebra) (u : SymSet) :
    isReorderTop (r.eliminate_temp_vars u) = isReorderTop r := by
  cases r <;> rfl

/-! Unfolding helpers for the monadic fold and the result shape of the
rule-body compiler. -/

theorem foldAtoms_nil (c : Compiler) (ar : List (MagicSymbol × Nat)) (st : CompState) :
    c.foldAtoms ar st [] = .ok st := rfl

theorem foldAtoms_cons (c : Compiler) (ar : List (MagicSymbol × Nat))
    (st : CompState) (a : MagicAtom) (rest : List MagicAtom) :
    c.foldAtoms ar st (a :: rest)
      = match c.processAtom ar st a with
        | .ok st' => c.foldAtoms ar st' rest
        | .error e => .error e := by
  show Except.bind _ _ = _
  cases c.processAtom ar st a <;> rfl

theorem compile_mrb_eq (c : Compiler) (rule : MagicInlineRule)
    (ar : List (MagicSymbol × Nat)) (ret_vars : List Symbol) :
    c.compile_magic_rule_body rule ar ret_vars
      = match c.foldAtoms ar ⟨RelAlgebra.unitRA, [], 0⟩ rule.body with
        | .ok st => finalizeRet st.ret ret_vars
        | .error e => .error e := by
  show Except.bind _ _ = _
  cases c.foldAtoms ar ⟨RelAlgebra.unitRA, [], 0⟩ rule.body <;> rfl


theorem processAtom_Rule_eq (c : Compiler) (ar : List (MagicSymbol × Nat))
    (st : CompState) (name : MagicSymbol) (args : List Symbol) :
    c.processAtom ar st (.Rule name args)
      = match ar.lookup name with
        | none => .error (.RuleNotFound name.symbolName)
        | some store_arity =>
            if store_arity = args.length then
              .ok ⟨st.ret.join
                    (RelAlgebra.derived (processArgs st.seen st.serial args).2.2.1 name)
                    (processArgs st.seen st.serial args).1
                    (processArgs st.seen st.serial args).2.1,
                  (processArgs st.seen st.serial args).2.2.2.1,
                  (processArgs st.seen st.serial args).2.2.2.2⟩
            else .error (.ArityMismatch name.symbolName store_arity args.length) := rfl

theorem processAtom_Relation_eq (c : Compiler) (ar : List (MagicSymbol × Nat))
    (st : CompState) (name : String) (args : List Symbol) :
    c.processAtom ar st (.Relation name args)
      = match c.get_relation name with
        | .error e => .error e
        | .ok store =>
            if store.arity = args.length then
              .ok ⟨st.ret.join
                    (RelAlgebra.relationScan (processArgs st.seen st.serial args).2.2.1
                      store.name)
                    (processArgs st.seen st.serial args).1
                    (processArgs st.seen st.serial args).2.1,
                  (processArgs st.seen st.serial args).2.2.2.1,
                  (processArgs st.seen st.serial args).2.2.2.2⟩
            else .error (.ArityMismatch name store.arity args.length) := by
  show Except.bind _ _ = _
  cases c.get_relation name <;> rfl

theorem processAtom_Predicate_eq (c : Compiler) (ar : List (MagicSymbol × Nat))
    (st : CompState) (p : Expr) :
    c.processAtom ar st (.Predicate p)
      = .ok ⟨st.ret.filter p, st.seen, st.serial⟩ := rfl

theorem processAtom_Unification_eq (c : Compiler) (ar : List (MagicSymbol × Nat))
    (st : CompState) (b : Symbol) (e : Expr) (one_many : Bool) :
    c.processAtom ar st (.Unification b e one_many)
      = if st.seen.contains b then
          .ok ⟨st.ret.filter (if one_many then Expr.build_is_in [Expr.binding b none, e]
                else Expr.build_equate [Expr.binding b none, e]),
               st.seen, st.serial⟩
        else .ok ⟨st.ret.unify b e one_many, setInsert st.seen b, st.serial⟩ := rfl

/-- Every atom step leaves a plan whose top is never a `Reorder` node. -/
theorem processAtom_notReorder (c : Compiler) (ar : List (MagicSymbol × Nat))
    (st : CompState) (a : MagicAtom) (st' : CompState)
    (h : c.processAtom ar st a = .ok st') : isReorderTop st'.ret = false := by
  cases a with
  | Rule name args =>
      rw [processAtom_Rule_eq] at h
      cases hl : ar.lookup name with
      | none => rw [hl] at h; cases h
      | some arity =>
          rw [hl] at h
          dsimp only at h
          by_cases he : arity = args.length
          · rw [if_pos he] at h
            cases h
            rfl
          · rw [if_neg he] at h; cases h
  | Relation name args =>
      rw [processAtom_Relation_eq] at h
      cases hg : c.get_relation name with
      | error e => rw [hg] at h; cases h
      | ok store =>
          rw [hg] at h
          dsimp only at h
          by_cases he : store.arity = args.length
          · rw [if_pos he] at h
            cases h
            rfl
          · rw [if_neg he] at h
            cases h
  | Predicate p =>
      cases h
      exact isReorderTop_filterGo _ _ _
  | Unification b e one_many =>
      rw [processAtom_Unification_eq] at h
      by_cases hs : st.seen.contains b = true
      · rw [if_pos hs] at h
        cases h
        exact isReorderTop_filterGo _ _ _
      · rw [if_neg hs] at h
        cases h
        rfl
  | NegatedRule name args => cases h
  | NegatedRelation name args => cases h

theorem foldAtoms_notReorder (c : Compiler) (ar : List (MagicSymbol × Nat)) :
    ∀ (atoms : List MagicAtom) (st st' : CompState),
      c.foldAtoms ar st atoms = .ok st' → isReorderTop st.ret = false →
      isReorderTop st'.ret = false := by
  intro atoms
  induction atoms with
  | nil =>
      intro st st' h h0
      rw [foldAtoms_nil] at h
      cases h
      exact h0
  | cons a rest ih =>
      intro st st' h h0
      rw [foldAtoms_cons] at h
      cases hp : c.processAtom ar st a with
      | error e => rw [hp] at h; cases h
      | ok mid =>
          rw [hp] at h
          exact ih mid st' h (processAtom_notReorder c ar st a mid hp)

theorem finalizeStage2_ok_after (ret2 : RelAlgebra) (rv : List Symbol)
    (r : RelAlgebra) (hnr : isReorderTop ret2 = false)
    (h : finalizeStage2 ret2 rv = .ok r) :
    r.bindings_after_eliminate = rv
      ∧ ∀ inner no, r = .Reorder inner no →
          no = rv ∧ inner.bindings_after_eliminate ≠ rv
            ∧ setEqb inner.bindings_after_eliminate rv = true := by
  unfold finalizeStage2 at h
  dsimp only at h
  by_cases h1 : setEqb ret2.bindings_after_eliminate rv = true
  · rw [if_pos h1] at h
    by_cases h2 : rv = ret2.bindings_after_eliminate
    · rw [if_pos h2] at h
      cases h
      refine ⟨h2.symm, ?_⟩
      intro inner no hr
      rw [hr] at hnr
      cases hnr
    · rw [if_neg h2] at h
      cases h
      refine ⟨after_Reorder _ _, ?_⟩
      intro inner no hr
      have hi : ret2 = inner ∧ rv = no := by
        cases hr
        exact ⟨rfl, rfl⟩
      rcases hi with ⟨hi1, hi2⟩
      subst hi1
      subst hi2
      exact ⟨rfl, fun he => h2 he.symm, h1⟩
  · rw [if_neg h1] at h
    cases hf : rv.filter (fun v => !ret2.bindings_after_eliminate.contains v) with
    | nil => rw [hf] at h; cases h
    | cons v vs => rw [hf] at h; cases h

/-- Claim C1 — for every rule body the compiler accepts, the returned plan's
exposed bindings are exactly the declared head variables, in declared order;
and a `Reorder` at the top occurs exactly to fix an order mismatch: it
carries the declared order and wraps a plan whose exposed bindings form the
right set in a different order. -/
theorem compile_head_coverage (c : Compiler) (rule : MagicInlineRule)
    (ar : List (MagicSymbol × Nat)) (ret_vars : List Symbol) (r : RelAlgebra)
    (h : c.compile_magic_rule_body rule ar ret_vars = .ok r) :
    r.bindings_after_eliminate = ret_vars
      ∧ ∀ inner no, r = .Reorder inner no →
          no = ret_vars ∧ inner.bindings_after_eliminate ≠ ret_vars
            ∧ setEqb inner.bindings_after_eliminate ret_vars = true := by
  rw [compile_mrb_eq] at h
  cases hfold : c.foldAtoms ar ⟨RelAlgebra.unitRA, [], 0⟩ rule.body with
  | error e => rw [hfold] at h; cases h
  | ok st =>
      rw [hfold] at h
      have hst : isReorderTop st.ret = false :=
        foldAtoms_notReorder c ar rule.body ⟨RelAlgebra.unitRA, [], 0⟩ st hfold rfl
      unfold finalizeRet at h
      dsimp only at h
      by_cases h1 : setEqb (st.ret.eliminate_temp_vars ret_vars).bindings_after_eliminate
          ret_vars = true
      · rw [if_pos h1] at h
        refine finalizeStage2_ok_after _ _ _ ?_ h
        rw [isReorderTop_eliminate]
        exact hst
      · rw [if_neg h1] at h
        exact finalizeStage2_ok_after _ _ _ (by rw [isReorderTop_eliminate]; rfl) h

/-- Witness for C1: a one-atom rule whose head declares the scanned
variables in reversed order compiles to a `Reorder`-topped plan exposing
exactly the head order. -/
theorem compile_head_coverage_witness :
    (RelAlgebra.Reorder
        (.Join (.Fixed [] [[]] []) (.TempStore ["x", "y"] (.muggle "p") []) [] [] [])
        ["y", "x"]).bindings_after_eliminate = ["y", "x"] :=
  (compile_head_coverage Compiler.new ⟨["y", "x"], [.Rule (.muggle "p") ["x", "y"]]⟩
    [(.muggle "p", 2)] ["y", "x"] _ rfl).1

/-- Claim C5 — when after the atom fold and first elimination the exposed
binding set differs from the head set, the compiler joins the plan against a
fresh unit node and re-eliminates; if the recovered plan's exposed set
matches it succeeds, and otherwise it fails with `UnboundSymbolInRuleHead`
naming a variable of the head set that the recovered plan does not
expose. -/
theorem compile_unbound_head_recovery (c : Compiler) (rule : MagicInlineRule)
    (ar : List (MagicSymbol × Nat)) (rv : List Symbol) (st : CompState)
    (hfold : c.foldAtoms ar ⟨RelAlgebra.unitRA, [], 0⟩ rule.body = .ok st)
    (hmiss : setEqb (st.ret.eliminate_temp_vars rv).bindings_after_eliminate rv
      = false) :
    (setEqb (((st.ret.eliminate_temp_vars rv).cartesian_join
          RelAlgebra.unitRA).eliminate_temp_vars rv).bindings_after_eliminate rv = true →
        ∃ r, c.compile_magic_rule_body rule ar rv = .ok r)
    ∧ (setEqb (((st.ret.eliminate_temp_vars rv).cartesian_join
          RelAlgebra.unitRA).eliminate_temp_vars rv).bindings_after_eliminate rv = false →
        ∃ v, c.compile_magic_rule_body rule ar rv = .error (.UnboundSymbolInRuleHead v)
          ∧ v ∈ rv
          ∧ v ∉ (((st.ret.eliminate_temp_vars rv).cartesian_join
              RelAlgebra.unitRA).eliminate_temp_vars rv).bindings_after_eliminate) := by
  have hcomp : c.compile_magic_rule_body rule ar rv
      = finalizeStage2 (((st.ret.eliminate_temp_vars rv).cartesian_join
          RelAlgebra.unitRA).eliminate_temp_vars rv) rv := by
    rw [compile_mrb_eq, hfold]
    unfold finalizeRet
    dsimp only
    rw [if_neg (by rw [hmiss]; exact Bool.false_ne_true)]
  constructor
  · intro h2
    rw [hcomp]
    unfold finalizeStage2
    dsimp only
    rw [if_pos h2]
    by_cases h3 : rv = (((st.ret.eliminate_temp_vars rv).cartesian_join
        RelAlgebra.unitRA).eliminate_temp_vars rv).bindings_after_eliminate
    · rw [if_pos h3]
      exact ⟨_, rfl⟩
    · rw [if_neg h3]
      exact ⟨_, rfl⟩
  · intro h2
    have hsub : ∀ x ∈ (((st.ret.eliminate_temp_vars rv).cartesian_join
        RelAlgebra.unitRA).eliminate_temp_vars rv).bindings_after_eliminate, x ∈ rv := by
      intro x hx
      exact eliminate_join_after_subset (st.ret.eliminate_temp_vars rv)
        RelAlgebra.unitRA [] [] [] rv x hx
    have hex : ∃ v ∈ rv, v ∉ (((st.ret.eliminate_temp_vars rv).cartesian_join
        RelAlgebra.unitRA).eliminate_temp_vars rv).bindings_after_eliminate := by
      by_contra hno
      push_neg at hno
      have : setEqb (((st.ret.eliminate_temp_vars rv).cartesian_join
          RelAlgebra.unitRA).eliminate_temp_vars rv).bindings_after_eliminate rv = true :=
        setEqb_iff.2 (fun x => ⟨fun hx => hsub x hx, fun hx => hno x hx⟩)
      rw [h2] at this
      cases this
    rw [hcomp]
    unfold finalizeStage2
    dsimp only
    rw [if_neg (by rw [h2]; exact Bool.false_ne_true)]
    rcases hex with ⟨v, hv1, hv2⟩
    have hvf : v ∈ rv.filter (fun x => !(((st.ret.eliminate_temp_vars rv).cartesian_join
        RelAlgebra.unitRA).eliminate_temp_vars rv).bindings_after_eliminate.contains x) := by
      apply List.mem_filter.2
      refine ⟨hv1, ?_⟩
      simp only [Bool.not_eq_true']
      rcases hc : (((st.ret.eliminate_temp_vars rv).cartesian_join
          RelAlgebra.unitRA).eliminate_temp_vars rv).bindings_after_eliminate.contains v with _ | _
      · rfl
      · exact absurd ((contains_iff _ _).1 hc) hv2
    cases hf : rv.filter (fun x => !(((st.ret.eliminate_temp_vars rv).cartesian_join
        RelAlgebra.unitRA).eliminate_temp_vars rv).bindings_after_eliminate.contains x) with
    | nil => rw [hf] at hvf; cases hvf
    | cons w ws =>
        have hw : w ∈ rv.filter (fun x => !(((st.ret.eliminate_temp_vars rv).cartesian_join
            RelAlgebra.unitRA).eliminate_temp_vars rv).bindings_after_eliminate.contains x) := by
          rw [hf]; exact List.mem_cons_self _ _
        rcases List.mem_filter.1 hw with ⟨hw1, hw2⟩
        refine ⟨w, rfl, hw1, ?_⟩
        intro hmem
        rw [(contains_iff _ _).2 hmem] at hw2
        cases hw2

/-- Witness for C5: the empty-bodied rule with head `z` (spec scenario 8)
goes through the recovery join and still fails, naming `z`. -/
theorem compile_unbound_head_recovery_witness :
    ∃ v, Compiler.new.compile_magic_rule_body ⟨["z"], []⟩ [] ["z"]
        = .error (.UnboundSymbolInRuleHead v)
      ∧ v ∈ ["z"]
      ∧ v ∉ ((((⟨RelAlgebra.unitRA, [], 0⟩ : CompState).ret.eliminate_temp_vars
          ["z"]).cartesian_join RelAlgebra.unitRA).eliminate_temp_vars
            ["z"]).bindings_after_eliminate :=
  (compile_unbound_head_recovery Compiler.new ⟨["z"], []⟩ [] ["z"]
    ⟨RelAlgebra.unitRA, [], 0⟩ rfl rfl).2 rfl

/-! Claims C3 (filter push-down at joins), C4 (needed-set propagation of the
elimination pass at joins) and C7 (unification atoms). -/

/-- The filter expressions attached at the very top of a plan (empty unless
the top node is a `Filter`). -/
def topFilters : RelAlgebra → List Expr
  | .Filter _ fs _ => fs
  | _ => []

theorem joinCount_Join (l r : RelAlgebra) (lk rk : List Symbol) (el : SymSet) :
    joinCount (.Join l r lk rk el) = joinCount l + joinCount r + 1 := rfl

theorem filterGo_succ_Join (fuel : Nat) (l r : RelAlgebra) (lk rk : List Symbol)
    (el : SymSet) (f : Expr) :
    filterGo (fuel + 1) (.Join l r lk rk el) f
      = (if (pushList (filterGo fuel) l.bindings_before_eliminate
            r.bindings_before_eliminate f.to_conjunction (l, r, [])).2.2.isEmpty then
          (.Join (pushList (filterGo fuel) l.bindings_before_eliminate
              r.bindings_before_eliminate f.to_conjunction (l, r, [])).1
            (pushList (filterGo fuel) l.bindings_before_eliminate
              r.bindings_before_eliminate f.to_conjunction (l, r, [])).2.1
            lk rk el)
        else
          .Filter (.Join (pushList (filterGo fuel) l.bindings_before_eliminate
              r.bindings_before_eliminate f.to_conjunction (l, r, [])).1
            (pushList (filterGo fuel) l.bindings_before_eliminate
              r.bindings_before_eliminate f.to_conjunction (l, r, [])).2.1
            lk rk el)
            (pushList (filterGo fuel) l.bindings_before_eliminate
              r.bindings_before_eliminate f.to_conjunction (l, r, [])).2.2 []) := rfl

/-- Claim C3 — filtering a `Join` decomposes the expression into top-level
conjuncts; a conjunct whose footprint fits inside one child's bindings is
pushed into that child (left tried first) and only conjuncts fitting
neither side remain above the rebuilt join, in a `Filter` wrapper that is
present exactly when such conjuncts exist; the rebuilt children expose the
same bindings as the originals. -/
theorem filter_join_pushdown (l r : RelAlgebra) (lk rk : List Symbol)
    (el : SymSet) (f : Expr) :
    topFilters ((RelAlgebra.Join l r lk rk el).filter f)
        = f.to_conjunction.filter (fun c =>
            !subsetB c.bindingsList l.bindings_before_eliminate
              && !subsetB c.bindingsList r.bindings_before_eliminate)
      ∧ ∃ l' r',
          ((RelAlgebra.Join l r lk rk el).filter f = .Join l' r' lk rk el
            ∧ topFilters ((RelAlgebra.Join l r lk rk el).filter f) = []
          ∨ (RelAlgebra.Join l r lk rk el).filter f
              = .Filter (.Join l' r' lk rk el)
                  (topFilters ((RelAlgebra.Join l r lk rk el).filter f)) []
            ∧ topFilters ((RelAlgebra.Join l r lk rk el).filter f) ≠ [])
          ∧ l'.bindings_after_eliminate = l.bindings_after_eliminate
          ∧ r'.bindings_after_eliminate = r.bindings_after_eliminate := by
  have hunf : (RelAlgebra.Join l r lk rk el).filter f
      = filterGo (joinCount l + joinCount r + 1 + 1) (.Join l r lk rk el) f := rfl
  rcases pushList_spec (filterGo (joinCount l + joinCount r + 1))
      (filterGo_after _) l.bindings_before_eliminate r.bindings_before_eliminate
      f.to_conjunction l r [] with ⟨e1, e2, e3⟩
  rw [hunf, filterGo_succ_Join]
  by_cases hrem : (pushList (filterGo (joinCount l + joinCount r + 1))
      l.bindings_before_eliminate r.bindings_before_eliminate
      f.to_conjunction (l, r, [])).2.2.isEmpty = true
  · rw [if_pos hrem]
    have hnil : (pushList (filterGo (joinCount l + joinCount r + 1))
        l.bindings_before_eliminate r.bindings_before_eliminate
        f.to_conjunction (l, r, [])).2.2 = [] := by
      rwa [List.isEmpty_iff] at hrem
    constructor
    · show ([] : List Expr) = _
      rw [← List.nil_append (f.to_conjunction.filter _), ← e3, hnil]
    · exact ⟨_, _, Or.inl ⟨rfl, rfl⟩, e1, e2⟩
  · rw [if_neg hrem]
    have hne : (pushList (filterGo (joinCount l + joinCount r + 1))
        l.bindings_before_eliminate r.bindings_before_eliminate
        f.to_conjunction (l, r, [])).2.2 ≠ [] := by
      intro hx
      rw [← List.isEmpty_iff] at hx
      exact hrem hx
    constructor
    · show (pushList _ _ _ _ _).2.2 = _
      rw [e3]
      rfl
    · exact ⟨_, _, Or.inr ⟨rfl, hne⟩, e1, e2⟩

/-- Membership in the concatenated footprints of a filter list. -/
theorem mem_bindingsListMany {fs : List Expr} {x : Symbol} :
    x ∈ Expr.bindingsListMany fs ↔ ∃ f ∈ fs, x ∈ f.bindingsList := by
  induction fs with
  | nil => simp [Expr.bindingsListMany]
  | cons g rest ih =>
      show x ∈ g.bindingsList ++ Expr.bindingsListMany rest ↔ _
      rw [List.mem_append, ih]
      constructor
      · rintro (hx | ⟨f, hf, hx⟩)
        · exact ⟨g, List.mem_cons_self _ _, hx⟩
        · exact ⟨f, List.mem_cons_of_mem _ hf, hx⟩
      · rintro ⟨f, hf, hx⟩
        rcases List.mem_cons.1 hf with rfl | hf
        · exact Or.inl hx
        · exact Or.inr ⟨f, hf, hx⟩

/-- Claim C4 — eliminating a `Join` recurses into the left child with the
needed set extended by the left join keys plus, exactly when the right
child is a `TempStore` (`tempStoreFilters` is empty on every other shape),
the variables of that store's push-down filters; and into the right child
with the needed set extended by the right join keys.  The join's own
elimination set grows by its exposed-but-unneeded bindings. -/
theorem eliminate_join_needed_sets (l r : RelAlgebra) (lk rk : List Symbol)
    (el : SymSet) (u : SymSet) :
    ∃ lu ru el',
      (RelAlgebra.Join l r lk rk el).eliminate_temp_vars u
          = .Join (l.eliminate_temp_vars lu) (r.eliminate_temp_vars ru) lk rk el'
        ∧ (∀ x, x ∈ lu ↔ x ∈ u ∨ x ∈ lk ∨ ∃ f ∈ tempStoreFilters r, x ∈ f.bindingsList)
        ∧ (∀ x, x ∈ ru ↔ x ∈ u ∨ x ∈ rk)
        ∧ (∀ x, x ∈ el' ↔ x ∈ el
            ∨ (x ∈ (RelAlgebra.Join l r lk rk el).bindings_before_eliminate ∧ x ∉ u)) := by
  refine ⟨insertAll (insertAll u lk) (Expr.bindingsListMany (tempStoreFilters r)),
    insertAll u rk,
    insertNotUsed el ((RelAlgebra.Join l r lk rk el).bindings_before_eliminate) u,
    eliminate_Join l r lk rk el u, ?_, ?_, ?_⟩
  · intro x
    rw [mem_insertAll, mem_insertAll, mem_bindingsListMany]
    tauto
  · intro x
    rw [mem_insertAll]
  · intro x
    rw [mem_insertNotUsed]

/-- Claim C7 — a unification atom over an already-seen variable extends the
plan with a filter (a set-membership test in the one-to-many form, an
equality test otherwise) and introduces no new binding and no new seen
variable; over an unseen variable it extends the plan with a `Unification`
node carrying the atom's one-to-many flag, appending the variable as a new
exposed binding and marking it seen. -/
theorem processAtom_unification_spec (c : Compiler) (ar : List (MagicSymbol × Nat))
    (st : CompState) (b : Symbol) (e : Expr) (one_many : Bool) :
    ∃ st', c.processAtom ar st (.Unification b e one_many) = .ok st'
      ∧ st' = (if st.seen.contains b then
            ⟨st.ret.filter (if one_many then Expr.build_is_in [Expr.binding b none, e]
              else Expr.build_equate [Expr.binding b none, e]), st.seen, st.serial⟩
          else ⟨st.ret.unify b e one_many, setInsert st.seen b, st.serial⟩)
      ∧ st'.ret.bindings_after_eliminate
          = st.ret.bindings_after_eliminate
              ++ (if st.seen.contains b then [] else [b])
      ∧ st'.seen = (if st.seen.contains b then st.seen else setInsert st.seen b) := by
  have heq := processAtom_Unification_eq c ar st b e one_many
  by_cases hs : st.seen.contains b = true
  · rw [if_pos hs] at heq
    refine ⟨_, heq, ?_, ?_, ?_⟩
    · rw [if_pos hs]
    · rw [if_pos hs]
      show (st.ret.filter _).bindings_after_eliminate = _ ++ []
      rw [filter_after, List.append_nil]
    · rw [if_pos hs]
  · rw [if_neg hs] at heq
    refine ⟨_, heq, ?_, ?_, ?_⟩
    · rw [if_neg hs]
    · rw [if_neg hs]
      show ((st.ret.unify b e one_many).bindings_after_eliminate) = _ ++ [b]
      show ((st.ret.bindings_after_eliminate ++ [b]).filter
        (fun x => !([] : SymSet).contains x)) = _
      exact List.filter_eq_self.2 (fun a _ => rfl)
    · rw [if_neg hs]

/-! Claim C8: prefix- versus materialized-join classification. -/

theorem join_indices_go_length (lbs rbs : List Symbol) :
    ∀ (ps : List (Symbol × Symbol)) (ls rs : List Nat),
      join_indices_go lbs rbs ps = some (ls, rs) →
      ls.length = ps.length ∧ rs.length = ps.length := by
  intro ps
  induction ps with
  | nil =>
      intro ls rs h
      cases h
      exact ⟨rfl, rfl⟩
  | cons p rest ih =>
      intro ls rs h
      rcases p with ⟨lkey, rkey⟩
      unfold join_indices_go at h
      cases hl : lastIndexOf lbs lkey with
      | none => rw [hl] at h; cases h
      | some lp =>
          cases hr : lastIndexOf rbs rkey with
          | none => rw [hl, hr] at h; cases h
          | some rp =>
              cases hrest : join_indices_go lbs rbs rest with
              | none => rw [hl, hr, hrest] at h; cases h
              | some res =>
                  rw [hl, hr, hrest] at h
                  cases h
                  rcases ih res.1 res.2 (by rw [hrest]) with ⟨h1, h2⟩
                  exact ⟨by simp [h1], by simp [h2]⟩

theorem join_is_prefix_iff_perm (ri : List Nat) :
    join_is_prefix_check ri = true ↔ ri.Perm (List.range ri.length) := by
  unfold join_is_prefix_check
  rw [beq_iff_eq]
  constructor
  · intro h
    have hp : (ri.mergeSort (fun a b => a ≤ b)).Perm ri := List.mergeSort_perm ri _
    rw [h] at hp
    exact hp.symm
  · intro h
    have hp : (ri.mergeSort (fun a b => a ≤ b)).Perm (List.range ri.length) :=
      (List.mergeSort_perm ri _).trans h
    have hs1 : (ri.mergeSort (fun a b => a ≤ b)).Sorted (· ≤ ·) := by
      have := @List.sorted_mergeSort Nat (fun a b : Nat => decide (a ≤ b))
        (fun a b c hab hbc => by simp at hab hbc ⊢; omega)
        (fun a b => by simp; omega) ri
      refine List.Pairwise.imp ?_ this
      intro a b hab
      simpa using hab
    have hs2 : (List.range ri.length).Sorted (· ≤ ·) := List.sorted_le_range _
    exact List.eq_of_perm_of_sorted hp hs1 hs2

/-- Claim C8 — for a join whose right child is a `TempStore` or `Stored`
scan, `join_type` classifies it as the corresponding prefix join exactly
when the right key positions are a permutation of `0..n` (`n` the number of
zipped key pairs), i.e. when sorted they fill the contiguous range; any
other position multiset yields the materialized variant. -/
theorem join_type_prefix_classification (left : RelAlgebra) (bs : List Symbol)
    (key : MagicSymbol) (fs fsStored : List Expr) (nm : String)
    (lk rk : List Symbol) (li ri : List Nat)
    (h : join_indices lk rk left.bindings_after_eliminate bs = some (li, ri)) :
    ri.length = (lk.zip rk).length
      ∧ join_type left (.TempStore bs key fs) lk rk
          = some (if ri.Perm (List.range ri.length) then "mem_prefix_join"
              else "mem_mat_join")
      ∧ join_type left (.Stored bs fsStored nm) lk rk
          = some (if ri.Perm (List.range ri.length) then "stored_prefix_join"
              else "stored_mat_join") := by
  refine ⟨(join_indices_go_length _ _ _ li ri h).2, ?_, ?_⟩
  · show (match join_indices lk rk left.bindings_after_eliminate bs with
      | some idx => some (if join_is_prefix_check idx.2 then "mem_prefix_join"
          else "mem_mat_join")
      | none => none) = _
    rw [h]
    dsimp only
    by_cases hp : ri.Perm (List.range ri.length)
    · rw [if_pos ((join_is_prefix_iff_perm ri).2 hp), if_pos hp]
    · rw [if_neg ?_, if_neg hp]
      intro hc
      exact hp ((join_is_prefix_iff_perm ri).1 hc)
  · show (match join_indices lk rk left.bindings_after_eliminate bs with
      | some idx => some (if join_is_prefix_check idx.2 then "stored_prefix_join"
          else "stored_mat_join")
      | none => none) = _
    rw [h]
    dsimp only
    by_cases hp : ri.Perm (List.range ri.length)
    · rw [if_pos ((join_is_prefix_iff_perm ri).2 hp), if_pos hp]
    · rw [if_neg ?_, if_neg hp]
      intro hc
      exact hp ((join_is_prefix_iff_perm ri).1 hc)

/-- Witness for C8, the spec's own example: right bindings `[a,b,c]` with
key positions `{0,1}` classify as a prefix join. -/
theorem join_type_prefix_classification_witness :
    join_indices ["u", "v"] ["a", "b"]
        (RelAlgebra.Stored ["u", "v"] [] "L").bindings_after_eliminate
        ["a", "b", "c"] = some ([0, 1], [0, 1])
      ∧ join_type (RelAlgebra.Stored ["u", "v"] [] "L")
          (.TempStore ["a", "b", "c"] (.muggle "t") []) ["u", "v"] ["a", "b"]
          = some (if ([0, 1] : List Nat).Perm (List.range ([0, 1] : List Nat).length)
              then "mem_prefix_join" else "mem_mat_join") :=
  ⟨rfl, (join_type_prefix_classification (RelAlgebra.Stored ["u", "v"] [] "L")
    ["a", "b", "c"] (.muggle "t") [] [] "ignored" ["u", "v"] ["a", "b"]
    [0, 1] [0, 1] rfl).2.1⟩

/-! Claim C9: the `StoreRelationConflict` guard of `compile_query` is dead
code.  `relation_exists` consults the `relations` map, which `Compiler::new`
creates empty and no code in the sources ever inserts into — in particular
`create_relation` registers into `compiled_relations` only.  Re-creating an
existing relation therefore slips past the guard and fails inside
`create_relation` with `RelNameConflict` instead of the claimed
`StoreRelationConflict`. -/

/-- `create_relation` never touches the `relations` map that
`relation_exists` consults. -/
theorem create_relation_keeps_relations (c : Compiler) (name : String)
    (arity : Nat) (c' : Compiler) (h : CompiledRelationHandle)
    (hc : c.create_relation name arity = .ok (c', h)) :
    c'.relations = c.relations := by
  unfold Compiler.create_relation at hc
  by_cases hk : (c.compiled_relations.lookup name).isSome = true
  · rw [if_pos hk] at hc; cases hc
  · rw [if_neg hk] at hc
    cases hc
    rfl

/-- Claim C9 evaluated at the failing input: after a first query has created
relation `foo`, a second query requesting `RelationOp::Create` for `foo`
fails with `RelNameConflict`, not `StoreRelationConflict`, because
`relation_exists` still reports `false`. -/
theorem store_relation_conflict_dead_guard :
    ∃ (c1 : Compiler) (h : CompiledRelationHandle),
      Compiler.new.compile_query_store_relation_check (some (⟨"foo", 2⟩, .Create))
          = .ok c1
      ∧ Compiler.new.create_relation "foo" 2 = .ok (c1, h)
      ∧ c1.relation_exists "foo" = false
      ∧ c1.compile_query_store_relation_check (some (⟨"foo", 2⟩, .Create))
          = .error (.RelNameConflict "foo")
      ∧ CompileErr.RelNameConflict "foo" ≠ CompileErr.StoreRelationConflict "foo" := by
  refine ⟨⟨[("foo", ⟨0, "foo", 2, [], []⟩)], [], [], []⟩, ⟨0, "foo", 2, [], []⟩,
    rfl, rfl, rfl, rfl, ?_⟩
  intro hc
  cases hc

/-- Claim C10 — eliminating a `Unification` node only ever inserts bindings
of the parent's binding list into the node's elimination set, so the node's
own introduced binding survives `bindings_after_eliminate` for every needed
set, including ones that do not contain it. -/
theorem unification_eliminate_keeps_binding (p : RelAlgebra) (b : Symbol)
    (e : Expr) (m : Bool) (el : SymSet) (u : SymSet)
    (hb1 : b ∉ p.bindings_before_eliminate) (hb2 : b ∉ el) :
    ∃ p' el', (RelAlgebra.Unification p b e m el).eliminate_temp_vars u
        = .Unification p' b e m el'
      ∧ (∀ x ∈ el', x ∈ el ∨ x ∈ p.bindings_before_eliminate)
      ∧ b ∈ ((RelAlgebra.Unification p b e m el).eliminate_temp_vars
          u).bindings_after_eliminate := by
  refine ⟨p.eliminate_temp_vars (insertAll u e.bindingsList),
    insertNotUsed el p.bindings_before_eliminate u,
    eliminate_Unification p b e m el u, ?_, ?_⟩
  · intro x hx
    rcases mem_insertNotUsed.1 hx with h | h
    · exact Or.inl h
    · exact Or.inr h.1
  · rw [eliminate_Unification, after_Unification]
    apply List.mem_filter.2
    refine ⟨List.mem_append.2 (Or.inr (List.mem_singleton.2 rfl)), ?_⟩
    simp only [Bool.not_eq_true']
    rcases hc : (insertNotUsed el p.bindings_before_eliminate u).contains b with _ | _
    · rfl
    · exfalso
      rcases mem_insertNotUsed.1 ((contains_iff _ _).1 hc) with h | h
      · exact hb2 h
      · exact hb1 h.1

/-- Witness for C10: a unification node over a one-column stored scan keeps
its introduced binding `y` across elimination with an empty needed set. -/
theorem unification_eliminate_keeps_binding_witness :
    ∃ p' el', (RelAlgebra.Unification (.Stored ["x"] [] "s") "y"
          (.const .null) false []).eliminate_temp_vars []
        = .Unification p' "y" (.const .null) false el'
      ∧ (∀ x ∈ el', x ∈ ([] : SymSet) ∨ x ∈ (RelAlgebra.Stored ["x"] [] "s").bindings_before_eliminate)
      ∧ "y" ∈ ((RelAlgebra.Unification (.Stored ["x"] [] "s") "y"
          (.const .null) false []).eliminate_temp_vars []).bindings_after_eliminate :=
  unification_eliminate_keeps_binding (.Stored ["x"] [] "s") "y" (.const .null)
    false [] [] (by decide) (by decide)

/-! Claim C6: arity-mismatch characterisation.  As literally stated the
claim is an equivalence and its right-to-left direction fails: an earlier
atom can abort compilation with a different error (e.g. `RuleNotFound`)
even though a later application atom disagrees with its target's arity.
The corrected statement keeps the left-to-right direction unconditionally
and the right-to-left direction under the proviso that every application
atom's target exists and no negated atoms occur. -/

/-- The atom blamed by an `ArityMismatch(name, required, given)` error:
a rule application whose recorded arity is `required` and argument count is
`given`, or a relation application whose registered arity is `required` and
argument count is `given`, with the two disagreeing. -/
def arityMismatchAtom (c : Compiler) (ar : List (MagicSymbol × Nat))
    (a : MagicAtom) (name : String) (req given : Nat) : Prop :=
  match a with
  | .Rule ms args =>
      ms.symbolName = name ∧ ar.lookup ms = some req
        ∧ args.length = given ∧ req ≠ given
  | .Relation nm args =>
      nm = name ∧ (∃ h, c.get_relation nm = .ok h ∧ h.arity = req)
        ∧ args.length = given ∧ req ≠ given
  | _ => False

/-- An atom whose target (arity-map entry or registered relation) exists;
negated atoms are excluded (they abort compilation unconditionally). -/
def atomTargetsExistB (c : Compiler) (ar : List (MagicSymbol × Nat)) :
    MagicAtom → Bool
  | .Rule ms _ => (ar.lookup ms).isSome
  | .Relation nm _ => (c.compiled_relations.lookup nm).isSome
  | .NegatedRule _ _ => false
  | .NegatedRelation _ _ => false
  | .Predicate _ => true
  | .Unification _ _ _ => true

/-- An application atom whose argument count disagrees with its existing
target's arity. -/
def atomHasMismatchB (c : Compiler) (ar : List (MagicSymbol × Nat)) :
    MagicAtom → Bool
  | .Rule ms args =>
      match ar.lookup ms with
      | some req => req != args.length
      | none => false
  | .Relation nm args =>
      match c.compiled_relations.lookup nm with
      | some h => h.arity != args.length
      | none => false
  | _ => false

theorem get_relation_eq (c : Compiler) (nm : String) :
    c.get_relation nm = match c.compiled_relations.lookup nm with
      | some h => .ok h
      | none => .error (.StoredRelationNotFound nm) := rfl

theorem processAtom_arity_mismatch (c : Compiler) (ar : List (MagicSymbol × Nat))
    (st : CompState) (a : MagicAtom) (name : String) (req given : Nat)
    (h : c.processAtom ar st a = .error (.ArityMismatch name req given)) :
    arityMismatchAtom c ar a name req given := by
  cases a with
  | Rule ms args =>
      rw [processAtom_Rule_eq] at h
      cases hl : ar.lookup ms with
      | none => rw [hl] at h; cases h
      | some arity =>
          rw [hl] at h
          dsimp only at h
          by_cases he : arity = args.length
          · rw [if_pos he] at h; cases h
          · rw [if_neg he] at h
            cases h
            exact ⟨rfl, hl, rfl, he⟩
  | Relation nm args =>
      rw [processAtom_Relation_eq] at h
      cases hg : c.get_relation nm with
      | error e =>
          rw [hg] at h
          dsimp only at h
          cases h
          exfalso
          rw [get_relation_eq] at hg
          cases hl : c.compiled_relations.lookup nm with
          | some store => rw [hl] at hg; cases hg
          | none =>
              rw [hl] at hg
              exact CompileErr.noConfusion (Except.error.inj hg)
      | ok store =>
          rw [hg] at h
          dsimp only at h
          by_cases he : store.arity = args.length
          · rw [if_pos he] at h; cases h
          · rw [if_neg he] at h
            cases h
            exact ⟨rfl, ⟨store, hg, rfl⟩, rfl, he⟩
  | Predicate p => rw [processAtom_Predicate_eq] at h; cases h
  | Unification b e one_many =>
      rw [processAtom_Unification_eq] at h
      by_cases hs : st.seen.contains b = true
      · rw [if_pos hs] at h; cases h
      · rw [if_neg hs] at h; cases h
  | NegatedRule ms args => cases h
  | NegatedRelation nm args => cases h

theorem processAtom_ok_of_no_mismatch (c : Compiler) (ar : List (MagicSymbol × Nat))
    (st : CompState) (a : MagicAtom)
    (hex : atomTargetsExistB c ar a = true)
    (hnm : atomHasMismatchB c ar a = false) :
    ∃ mid, c.processAtom ar st a = .ok mid := by
  cases a with
  | Rule ms args =>
      cases hl : ar.lookup ms with
      | none =>
          exfalso
          unfold atomTargetsExistB at hex
          dsimp only at hex
          rw [hl] at hex
          cases hex
      | some arity =>
          rw [processAtom_Rule_eq, hl]
          dsimp only
          by_cases he : arity = args.length
          · rw [if_pos he]
            exact ⟨_, rfl⟩
          · exfalso
            unfold atomHasMismatchB at hnm
            dsimp only at hnm
            rw [hl] at hnm
            dsimp only at hnm
            rw [bne_eq_false_iff_eq] at hnm
            exact he hnm
  | Relation nm args =>
      cases hl : c.compiled_relations.lookup nm with
      | none =>
          exfalso
          unfold atomTargetsExistB at hex
          dsimp only at hex
          rw [hl] at hex
          cases hex
      | some store =>
          rw [processAtom_Relation_eq, get_relation_eq, hl]
          dsimp only
          by_cases he : store.arity = args.length
          · rw [if_pos he]
            exact ⟨_, rfl⟩
          · exfalso
            unfold atomHasMismatchB at hnm
            dsimp only at hnm
            rw [hl] at hnm
            dsimp only at hnm
            rw [bne_eq_false_iff_eq] at hnm
            exact he hnm
  | Predicate p => exact ⟨_, processAtom_Predicate_eq c ar st p⟩
  | Unification b e one_many =>
      rw [processAtom_Unification_eq]
      by_cases hs : st.seen.contains b = true
      · rw [if_pos hs]
        exact ⟨_, rfl⟩
      · rw [if_neg hs]
        exact ⟨_, rfl⟩
  | NegatedRule ms args => cases hex
  | NegatedRelation nm args => cases hex

theorem processAtom_err_of_mismatch (c : Compiler) (ar : List (MagicSymbol × Nat))
    (st : CompState) (a : MagicAtom)
    (hm : atomHasMismatchB c ar a = true) :
    ∃ name req given, c.processAtom ar st a = .error (.ArityMismatch name req given)
      ∧ req ≠ given := by
  cases a with
  | Rule ms args =>
      unfold atomHasMismatchB at hm
      dsimp only at hm
      cases hl : ar.lookup ms with
      | none => rw [hl] at hm; cases hm
      | some arity =>
          rw [hl] at hm
          dsimp only at hm
          rw [bne_iff_ne] at hm
          rw [processAtom_Rule_eq, hl]
          dsimp only
          rw [if_neg hm]
          exact ⟨_, _, _, rfl, hm⟩
  | Relation nm args =>
      unfold atomHasMismatchB at hm
      dsimp only at hm
      cases hl : c.compiled_relations.lookup nm with
      | none => rw [hl] at hm; cases hm
      | some store =>
          rw [hl] at hm
          dsimp only at hm
          rw [bne_iff_ne] at hm
          rw [processAtom_Relation_eq, get_relation_eq, hl]
          dsimp only
          rw [if_neg hm]
          exact ⟨_, _, _, rfl, hm⟩
  | Predicate p => cases hm
  | Unification b e one_many => cases hm
  | NegatedRule ms args => cases hm
  | NegatedRelation nm args => cases hm

theorem foldAtoms_arity_mismatch (c : Compiler) (ar : List (MagicSymbol × Nat)) :
    ∀ (atoms : List MagicAtom) (st : CompState) (name : String) (req given : Nat),
      c.foldAtoms ar st atoms = .error (.ArityMismatch name req given) →
      ∃ a ∈ atoms, arityMismatchAtom c ar a name req given := by
  intro atoms
  induction atoms with
  | nil =>
      intro st name req given h
      rw [foldAtoms_nil] at h
      cases h
  | cons a rest ih =>
      intro st name req given h
      rw [foldAtoms_cons] at h
      cases hp : c.processAtom ar st a with
      | error e =>
          rw [hp] at h
          cases h
          exact ⟨a, List.mem_cons_self _ _,
            processAtom_arity_mismatch c ar st a name req given hp⟩
      | ok mid =>
          rw [hp] at h
          rcases ih mid name req given h with ⟨a', ha', hm⟩
          exact ⟨a', List.mem_cons_of_mem _ ha', hm⟩

theorem foldAtoms_err_of_mismatch (c : Compiler) (ar : List (MagicSymbol × Nat)) :
    ∀ (atoms : List MagicAtom) (st : CompState),
      (∀ a ∈ atoms, atomTargetsExistB c ar a = true) →
      (∃ a ∈ atoms, atomHasMismatchB c ar a = true) →
      ∃ name req given,
        c.foldAtoms ar st atoms = .error (.ArityMismatch name req given)
          ∧ req ≠ given := by
  intro atoms
  induction atoms with
  | nil =>
      intro st _ hex
      rcases hex with ⟨a, ha, _⟩
      cases ha
  | cons a rest ih =>
      intro st htgt hmm
      by_cases hma : atomHasMismatchB c ar a = true
      · rcases processAtom_err_of_mismatch c ar st a hma with ⟨name, req, given, hp, hne⟩
        refine ⟨name, req, given, ?_, hne⟩
        rw [foldAtoms_cons, hp]
      · rcases processAtom_ok_of_no_mismatch c ar st a
            (htgt a (List.mem_cons_self _ _)) (Bool.not_eq_true _ ▸ hma) with ⟨mid, hp⟩
        have hrest : ∃ a' ∈ rest, atomHasMismatchB c ar a' = true := by
          rcases hmm with ⟨a', ha', hm'⟩
          rcases List.mem_cons.1 ha' with rfl | hmem
          · exact absurd hm' hma
          · exact ⟨a', hmem, hm'⟩
        rcases ih mid (fun a' ha' => htgt a' (List.mem_cons_of_mem _ ha')) hrest
          with ⟨name, req, given, hf, hne⟩
        refine ⟨name, req, given, ?_, hne⟩
        rw [foldAtoms_cons, hp]
        exact hf

theorem finalizeStage2_no_arity (ret2 : RelAlgebra) (rv : List Symbol)
    (name : String) (req given : Nat) :
    finalizeStage2 ret2 rv ≠ .error (.ArityMismatch name req given) := by
  unfold finalizeStage2
  dsimp only
  by_cases h1 : setEqb ret2.bindings_after_eliminate rv = true
  · rw [if_pos h1]
    by_cases h2 : rv = ret2.bindings_after_eliminate
    · rw [if_pos h2]
      intro h; cases h
    · rw [if_neg h2]
      intro h; cases h
  · rw [if_neg h1]
    cases rv.filter (fun v => !ret2.bindings_after_eliminate.contains v) with
    | nil => intro h; cases h
    | cons v vs => intro h; cases h

/-- Amended claim C6 — (left to right, unconditionally) an `ArityMismatch
(name, required, given)` failure of `compile_magic_rule_body` always blames
an application atom of the body whose target records arity `required` while
the call passes `given ≠ required` arguments; (right to left, amended) if
every application atom's target exists, no negated atoms occur, and some
application atom disagrees with its target's arity, compilation fails with
an `ArityMismatch` reporting disagreeing required/given counts.  The
unconditional converse of the original claim is refuted by
`Cozo.arity_mismatch_not_iff`. -/
theorem compile_arity_mismatch_characterization (c : Compiler)
    (rule : MagicInlineRule) (ar : List (MagicSymbol × Nat)) (rv : List Symbol) :
    (∀ name req given,
        c.compile_magic_rule_body rule ar rv = .error (.ArityMismatch name req given) →
        ∃ a ∈ rule.body, arityMismatchAtom c ar a name req given)
    ∧ ((∀ a ∈ rule.body, atomTargetsExistB c ar a = true) →
        (∃ a ∈ rule.body, atomHasMismatchB c ar a = true) →
        ∃ name req given,
          c.compile_magic_rule_body rule ar rv = .error (.ArityMismatch name req given)
            ∧ req ≠ given) := by
  constructor
  · intro name req given h
    rw [compile_mrb_eq] at h
    cases hfold : c.foldAtoms ar ⟨RelAlgebra.unitRA, [], 0⟩ rule.body with
    | error e =>
        rw [hfold] at h
        cases h
        exact foldAtoms_arity_mismatch c ar rule.body _ name req given hfold
    | ok st =>
        rw [hfold] at h
        unfold finalizeRet at h
        dsimp only at h
        by_cases h1 : setEqb (st.ret.eliminate_temp_vars rv).bindings_after_eliminate rv
            = true
        · rw [if_pos h1] at h
          exact absurd h (finalizeStage2_no_arity _ _ _ _ _)
        · rw [if_neg h1] at h
          exact absurd h (finalizeStage2_no_arity _ _ _ _ _)
  · intro htgt hmm
    rcases foldAtoms_err_of_mismatch c ar rule.body ⟨RelAlgebra.unitRA, [], 0⟩ htgt hmm
      with ⟨name, req, given, hf, hne⟩
    refine ⟨name, req, given, ?_, hne⟩
    rw [compile_mrb_eq, hf]

/-- Witness for the amended C6, the spec's scenario 9: calling a 2-ary
stored relation with 3 arguments yields `ArityMismatch` citing 2 and 3. -/
theorem compile_arity_mismatch_characterization_witness :
    ∃ name req given,
      (⟨[("r2", ⟨0, "r2", 2, [], []⟩)], [], [], []⟩ : Compiler).compile_magic_rule_body
          ⟨["a"], [.Relation "r2" ["a", "b", "c"]]⟩ [] ["a"]
        = .error (.ArityMismatch name req given) ∧ req ≠ given :=
  (compile_arity_mismatch_characterization
    ⟨[("r2", ⟨0, "r2", 2, [], []⟩)], [], [], []⟩
    ⟨["a"], [.Relation "r2" ["a", "b", "c"]]⟩ [] ["a"]).2
    (by decide) ⟨.Relation "r2" ["a", "b", "c"], List.mem_cons_self _ _, by decide⟩

/-- Counterexample to C6 as stated: the body's second atom is a relation
application whose 3 arguments disagree with the registered arity 2, yet
compilation fails with `RuleNotFound` (for the first atom), not with
`ArityMismatch` — so "fails with ArityMismatch iff some application atom
disagrees with its target's arity" is false. -/
theorem arity_mismatch_not_iff :
    (⟨[("r2", ⟨0, "r2", 2, [], []⟩)], [], [], []⟩ : Compiler).get_relation "r2"
        = .ok ⟨0, "r2", 2, [], []⟩
      ∧ (⟨0, "r2", 2, [], []⟩ : CompiledRelationHandle).arity
          ≠ (["a", "b", "c"] : List Symbol).length
      ∧ (⟨[("r2", ⟨0, "r2", 2, [], []⟩)], [], [], []⟩ : Compiler).compile_magic_rule_body
          ⟨["a"], [.Rule (.muggle "q") [], .Relation "r2" ["a", "b", "c"]]⟩ [] ["a"]
        = .error (.RuleNotFound "q")
      ∧ ∀ name req given,
          CompileErr.RuleNotFound "q" ≠ CompileErr.ArityMismatch name req given :=
  ⟨rfl, by decide, rfl, fun name req given h => CompileErr.noConfusion h⟩

/-! Claim C2: the no-duplicate/disjointness invariant of compiled plans.
The induction threads, through the atom fold, that every exposed binding is
either a parser-produced variable already marked seen (and not of the
synthetic `**k` shape) or a synthetic name with index below the running
counter; freshness of new bindings then follows from injectivity of
`synName` and the hypothesis that the rule's variables are not themselves of
synthetic shape (the parser, outside this crate, never produces such
names). -/

/-- The variables of an atom that can become plan bindings (application-atom
arguments and unification left-hand sides). -/
def atomBindingVars : MagicAtom → List Symbol
  | .Rule _ args => args
  | .Relation _ args => args
  | .Unification b _ _ => [b]
  | .NegatedRule _ _ => []
  | .NegatedRelation _ _ => []
  | .Predicate _ => []

theorem processArgs_cons (seen : SymSet) (serial : Nat) (var : Symbol)
    (rest : List Symbol) :
    processArgs seen serial (var :: rest)
      = if seen.contains var then
          (var :: (processArgs seen (serial + 1) rest).1,
           synName serial :: (processArgs seen (serial + 1) rest).2.1,
           synName serial :: (processArgs seen (serial + 1) rest).2.2.1,
           (processArgs seen (serial + 1) rest).2.2.2.1,
           (processArgs seen (serial + 1) rest).2.2.2.2)
        else
          ((processArgs (setInsert seen var) serial rest).1,
           (processArgs (setInsert seen var) serial rest).2.1,
           var :: (processArgs (setInsert seen var) serial rest).2.2.1,
           (processArgs (setInsert seen var) serial rest).2.2.2.1,
           (processArgs (setInsert seen var) serial rest).2.2.2.2) := rfl

/-- Behaviour of the argument loop: the serial counter only grows; the seen
set afterwards holds exactly the old seen set plus the argument variables;
the right-hand binding list is duplicate-free; and each right-hand binding
is either a fresh (previously unseen, non-synthetic) argument variable or a
synthetic name generated in this very loop. -/
theorem processArgs_spec :
    ∀ (args : List Symbol) (seen : SymSet) (serial : Nat),
      (∀ v ∈ args, isSynth v = false) →
      serial ≤ (processArgs seen serial args).2.2.2.2
      ∧ (∀ x, x ∈ (processArgs seen serial args).2.2.2.1 ↔ x ∈ seen ∨ x ∈ args)
      ∧ (processArgs seen serial args).2.2.1.Nodup
      ∧ (∀ x ∈ (processArgs seen serial args).2.2.1,
          (x ∈ args ∧ x ∉ seen ∧ isSynth x = false)
          ∨ ∃ k, serial ≤ k ∧ k < (processArgs seen serial args).2.2.2.2
              ∧ x = synName k) := by
  intro args
  induction args with
  | nil =>
      intro seen serial _
      refine ⟨Nat.le_refl _, ?_, List.nodup_nil, ?_⟩
      · intro x
        simp [processArgs]
      · intro x hx
        cases hx
  | cons var rest ih =>
      intro seen serial hargs
      have hvar : isSynth var = false := hargs var (List.mem_cons_self _ _)
      have hrest : ∀ v ∈ rest, isSynth v = false :=
        fun v hv => hargs v (List.mem_cons_of_mem _ hv)
      rw [processArgs_cons]
      by_cases hs : seen.contains var = true
      · rw [if_pos hs]
        have hseen : var ∈ seen := (contains_iff _ _).1 hs
        rcases ih seen (serial + 1) hrest with ⟨a, b, cnd, d⟩
        refine ⟨Nat.le_trans (Nat.le_succ _) a, ?_, ?_, ?_⟩
        · intro x
          rw [b x]
          constructor
          · rintro (h | h)
            · exact Or.inl h
            · exact Or.inr (List.mem_cons_of_mem _ h)
          · rintro (h | h)
            · exact Or.inl h
            · rcases List.mem_cons.1 h with rfl | h
              · exact Or.inl hseen
              · exact Or.inr h
        · refine List.nodup_cons.2 ⟨?_, cnd⟩
          intro hmem
          rcases d _ hmem with ⟨_, _, hsy⟩ | ⟨k, hk1, _, hk3⟩
          · rw [isSynth_synName] at hsy
            cases hsy
          · have : serial = k := synName_inj hk3
            omega
        · intro x hx
          rcases List.mem_cons.1 hx with rfl | hx
          · exact Or.inr ⟨serial, Nat.le_refl _, Nat.lt_of_lt_of_le (Nat.lt_succ_self _) a,
              rfl⟩
          · rcases d x hx with ⟨h1, h2, h3⟩ | ⟨k, hk1, hk2, hk3⟩
            · exact Or.inl ⟨List.mem_cons_of_mem _ h1, h2, h3⟩
            · exact Or.inr ⟨k, by omega, hk2, hk3⟩
      · rw [if_neg hs]
        have hns : var ∉ seen := fun hm => hs ((contains_iff _ _).2 hm)
        rcases ih (setInsert seen var) serial hrest with ⟨a, b, cnd, d⟩
        refine ⟨a, ?_, ?_, ?_⟩
        · intro x
          rw [b x, mem_setInsert]
          constructor
          · rintro ((rfl | h) | h)
            · exact Or.inr (List.mem_cons_self _ _)
            · exact Or.inl h
            · exact Or.inr (List.mem_cons_of_mem _ h)
          · rintro (h | h)
            · exact Or.inl (Or.inr h)
            · rcases List.mem_cons.1 h with rfl | h
              · exact Or.inl (Or.inl rfl)
              · exact Or.inr h
        · refine List.nodup_cons.2 ⟨?_, cnd⟩
          intro hmem
          rcases d _ hmem with ⟨_, h2, _⟩ | ⟨k, _, _, hk3⟩
          · exact h2 (mem_setInsert.2 (Or.inl rfl))
          · rw [hk3, isSynth_synName] at hvar
            cases hvar
        · intro x hx
          rcases List.mem_cons.1 hx with rfl | hx
          · exact Or.inl ⟨List.mem_cons_self _ _, hns, hvar⟩
          · rcases d x hx with ⟨h1, h2, h3⟩ | hk
            · exact Or.inl ⟨List.mem_cons_of_mem _ h1,
                fun hm => h2 (mem_setInsert.2 (Or.inr hm)), h3⟩
            · exact Or.inr hk

/-- Fold invariant: every exposed binding of the accumulated plan is a seen,
non-synthetic variable or a synthetic name already generated. -/
def namesOK (seen : SymSet) (serial : Nat) (r : RelAlgebra) : Prop :=
  ∀ x ∈ r.bindings_after_eliminate,
    (x ∈ seen ∧ isSynth x = false) ∨ ∃ k, k < serial ∧ x = synName k

theorem filter_not_contains_nil (l : List Symbol) :
    l.filter (fun x => !([] : SymSet).contains x) = l :=
  List.filter_eq_self.2 (fun _ _ => rfl)

/-- The right-hand bindings produced for a fresh scan are disjoint from the
accumulated plan's exposed bindings. -/
theorem fresh_scan_disjoint (ret : RelAlgebra) (seen : SymSet) (serial : Nat)
    (args : List Symbol) (h2 : namesOK seen serial ret)
    (hargs : ∀ v ∈ args, isSynth v = false) :
    List.Disjoint ret.bindings_after_eliminate
      (processArgs seen serial args).2.2.1 := by
  intro x hx hx'
  rcases processArgs_spec args seen serial hargs with ⟨_, _, _, d⟩
  rcases h2 x hx with ⟨hseen, hsy⟩ | ⟨k, hk, rfl⟩
  · rcases d x hx' with ⟨_, hns, _⟩ | ⟨k, _, _, rfl⟩
    · exact hns hseen
    · rw [isSynth_synName] at hsy
      cases hsy
  · rcases d _ hx' with ⟨_, _, hsy⟩ | ⟨k', hk1, _, he⟩
    · rw [isSynth_synName] at hsy
      cases hsy
    · have : k = k' := synName_inj he
      omega

/-- The names invariant carries over a fresh scan join. -/
theorem fresh_scan_namesOK (ret : RelAlgebra) (seen : SymSet) (serial : Nat)
    (args : List Symbol) (h2 : namesOK seen serial ret)
    (hargs : ∀ v ∈ args, isSynth v = false) :
    ∀ x ∈ ret.bindings_after_eliminate ++ (processArgs seen serial args).2.2.1,
      (x ∈ (processArgs seen serial args).2.2.2.1 ∧ isSynth x = false)
      ∨ ∃ k, k < (processArgs seen serial args).2.2.2.2 ∧ x = synName k := by
  rcases processArgs_spec args seen serial hargs with ⟨a, b, _, d⟩
  intro x hx
  rcases List.mem_append.1 hx with hx | hx
  · rcases h2 x hx with ⟨hseen, hsy⟩ | ⟨k, hk, rfl⟩
    · exact Or.inl ⟨(b x).2 (Or.inl hseen), hsy⟩
    · exact Or.inr ⟨k, by omega, rfl⟩
  · rcases d x hx with ⟨h1, _, h3⟩ | ⟨k, _, hk2, hk3⟩
    · exact Or.inl ⟨(b x).2 (Or.inr h1), h3⟩
    · exact Or.inr ⟨k, hk2, hk3⟩

theorem processAtom_inv (c : Compiler) (ar : List (MagicSymbol × Nat))
    (st : CompState) (a : MagicAtom) (st' : CompState)
    (hva : ∀ v ∈ atomBindingVars a, isSynth v = false)
    (h : c.processAtom ar st a = .ok st')
    (h1 : nodupTree st.ret) (h2 : namesOK st.seen st.serial st.ret) :
    nodupTree st'.ret ∧ namesOK st'.seen st'.serial st'.ret := by
  cases a with
  | Rule ms args =>
      rw [processAtom_Rule_eq] at h
      cases hl : ar.lookup ms with
      | none => rw [hl] at h; cases h
      | some arity =>
          rw [hl] at h
          dsimp only at h
          by_cases he : arity = args.length
          · rw [if_pos he] at h
            cases h
            rcases processArgs_spec args st.seen st.serial hva with ⟨_, _, cnd, _⟩
            have hdisj := fresh_scan_disjoint st.ret st.seen st.serial args h2 hva
            constructor
            · exact ⟨List.nodup_append.2
                  ⟨nodupTree_after _ h1, cnd, hdisj⟩, h1, cnd⟩
            · intro x hx
              dsimp only [RelAlgebra.join, RelAlgebra.derived] at hx ⊢
              rw [after_Join, after_TempStore, filter_not_contains_nil] at hx
              exact fresh_scan_namesOK st.ret st.seen st.serial args h2 hva x hx
          · rw [if_neg he] at h; cases h
  | Relation nm args =>
      rw [processAtom_Relation_eq] at h
      cases hg : c.get_relation nm with
      | error e => rw [hg] at h; dsimp only at h; cases h
      | ok store =>
          rw [hg] at h
          dsimp only at h
          by_cases he : store.arity = args.length
          · rw [if_pos he] at h
            cases h
            rcases processArgs_spec args st.seen st.serial hva with ⟨_, _, cnd, _⟩
            have hdisj := fresh_scan_disjoint st.ret st.seen st.serial args h2 hva
            constructor
            · exact ⟨List.nodup_append.2
                  ⟨nodupTree_after _ h1, cnd, hdisj⟩, h1, cnd⟩
            · intro x hx
              dsimp only [RelAlgebra.join, RelAlgebra.relationScan] at hx ⊢
              rw [after_Join, after_Stored, filter_not_contains_nil] at hx
              exact fresh_scan_namesOK st.ret st.seen st.serial args h2 hva x hx
          · rw [if_neg he] at h; cases h
  | Predicate p =>
      cases h
      refine ⟨nodupTree_filter _ _ h1, ?_⟩
      intro x hx
      rw [filter_after] at hx
      exact h2 x hx
  | Unification b e one_many =>
      rw [processAtom_Unification_eq] at h
      by_cases hs : st.seen.contains b = true
      · rw [if_pos hs] at h
        cases h
        refine ⟨nodupTree_filter _ _ h1, ?_⟩
        intro x hx
        rw [filter_after] at hx
        exact h2 x hx
      · rw [if_neg hs] at h
        cases h
        have hb : isSynth b = false := hva b (List.mem_cons_self _ _)
        have hbseen : b ∉ st.seen := fun hm => hs ((contains_iff _ _).2 hm)
        constructor
        · refine ⟨?_, h1⟩
          intro hmem
          rcases h2 b hmem with ⟨hseen, _⟩ | ⟨k, _, rfl⟩
          · exact hbseen hseen
          · rw [isSynth_synName] at hb
            cases hb
        · intro x hx
          dsimp only [RelAlgebra.unify] at hx ⊢
          rw [after_Unification, filter_not_contains_nil] at hx
          rcases List.mem_append.1 hx with hx | hx
          · rcases h2 x hx with ⟨hseen, hsy⟩ | hk
            · exact Or.inl ⟨mem_setInsert.2 (Or.inr hseen), hsy⟩
            · exact Or.inr hk
          · rcases List.mem_singleton.1 hx with rfl
            exact Or.inl ⟨mem_setInsert.2 (Or.inl rfl), hb⟩
  | NegatedRule ms args => cases h
  | NegatedRelation nm args => cases h

theorem foldAtoms_inv (c : Compiler) (ar : List (MagicSymbol × Nat)) :
    ∀ (atoms : List MagicAtom) (st st' : CompState),
      (∀ a ∈ atoms, ∀ v ∈ atomBindingVars a, isSynth v = false) →
      c.foldAtoms ar st atoms = .ok st' →
      nodupTree st.ret → namesOK st.seen st.serial st.ret →
      nodupTree st'.ret := by
  intro atoms
  induction atoms with
  | nil =>
      intro st st' _ h h1 _
      rw [foldAtoms_nil] at h
      cases h
      exact h1
  | cons a rest ih =>
      intro st st' hva h h1 h2
      rw [foldAtoms_cons] at h
      cases hp : c.processAtom ar st a with
      | error e => rw [hp] at h; cases h
      | ok mid =>
          rw [hp] at h
          rcases processAtom_inv c ar st a mid (hva a (List.mem_cons_self _ _)) hp h1 h2
            with ⟨m1, m2⟩
          exact ih mid st' (fun a' ha' => hva a' (List.mem_cons_of_mem _ ha')) h m1 m2

theorem finalizeStage2_ok_shape (ret2 : RelAlgebra) (rv : List Symbol)
    (r : RelAlgebra) (h : finalizeStage2 ret2 rv = .ok r) :
    r = ret2 ∨ r = .Reorder ret2 rv := by
  unfold finalizeStage2 at h
  dsimp only at h
  by_cases h1 : setEqb ret2.bindings_after_eliminate rv = true
  · rw [if_pos h1] at h
    by_cases h2 : rv = ret2.bindings_after_eliminate
    · rw [if_pos h2] at h
      cases h
      exact Or.inl rfl
    · rw [if_neg h2] at h
      cases h
      exact Or.inr rfl
  · rw [if_neg h1] at h
    cases hf : rv.filter (fun v => !ret2.bindings_after_eliminate.contains v) with
    | nil => rw [hf] at h; cases h
    | cons v vs => rw [hf] at h; cases h

/-- The claim-shaped invariant: every node's exposed bindings are
duplicate-free, and every `Join` node's children expose disjoint binding
sets whose concatenation is the join's pre-elimination binding list. -/
def bindingSetInvariant : RelAlgebra → Prop
  | .Fixed bs d el => ((RelAlgebra.Fixed bs d el).bindings_after_eliminate).Nodup
  | .TempStore bs _ _ => bs.Nodup
  | .Stored bs _ _ => bs.Nodup
  | .Join l r lk rk el =>
      ((RelAlgebra.Join l r lk rk el).bindings_after_eliminate).Nodup
        ∧ List.Disjoint l.bindings_after_eliminate r.bindings_after_eliminate
        ∧ (RelAlgebra.Join l r lk rk el).bindings_before_eliminate
            = l.bindings_after_eliminate ++ r.bindings_after_eliminate
        ∧ bindingSetInvariant l ∧ bindingSetInvariant r
  | .Reorder rel no => no.Nodup ∧ bindingSetInvariant rel
  | .Filter p fs el =>
      ((RelAlgebra.Filter p fs el).bindings_after_eliminate).Nodup
        ∧ bindingSetInvariant p
  | .Unification p b e m el =>
      ((RelAlgebra.Unification p b e m el).bindings_after_eliminate).Nodup
        ∧ bindingSetInvariant p

theorem nodupTree_bindingSetInvariant : ∀ r : RelAlgebra,
    nodupTree r → bindingSetInvariant r
  | .Fixed _ _ _, h => List.Nodup.filter _ h
  | .TempStore _ _ _, h => h
  | .Stored _ _ _, h => h
  | .Join l r _ _ _, h =>
      ⟨nodupTree_after _ h, (List.nodup_append.1 h.1).2.2, rfl,
        nodupTree_bindingSetInvariant l h.2.1, nodupTree_bindingSetInvariant r h.2.2⟩
  | .Reorder rel _, h => ⟨h.1, nodupTree_bindingSetInvariant rel h.2⟩
  | .Filter p fs el, h =>
      ⟨nodupTree_after _ (show nodupTree (.Filter p fs el) from h),
        nodupTree_bindingSetInvariant p h⟩
  | .Unification p b e m el, h =>
      ⟨nodupTree_after _ (show nodupTree (.Unification p b e m el) from h),
        nodupTree_bindingSetInvariant p h.2⟩

/-- Claim C2 — every plan the rule-body compiler returns satisfies the
binding-set invariant: duplicate-free exposed bindings at every node, and at
every `Join` disjoint children whose exposed bindings concatenate to the
join's binding list.  Hypotheses: the rule's variables are not of the
generated `**k` shape and the declared head variables are distinct — both
guaranteed by the (out-of-crate) parser. -/
theorem compile_binding_set_invariant (c : Compiler) (rule : MagicInlineRule)
    (ar : List (MagicSymbol × Nat)) (rv : List Symbol) (r : RelAlgebra)
    (hvars : ∀ a ∈ rule.body, ∀ v ∈ atomBindingVars a, isSynth v = false)
    (hhead : rv.Nodup)
    (h : c.compile_magic_rule_body rule ar rv = .ok r) :
    bindingSetInvariant r := by
  rw [compile_mrb_eq] at h
  cases hfold : c.foldAtoms ar ⟨RelAlgebra.unitRA, [], 0⟩ rule.body with
  | error e => rw [hfold] at h; cases h
  | ok st =>
      rw [hfold] at h
      have hst : nodupTree st.ret := by
        refine foldAtoms_inv c ar rule.body ⟨RelAlgebra.unitRA, [], 0⟩ st hvars hfold
          List.nodup_nil ?_
        intro x hx
        simp [RelAlgebra.unitRA] at hx
      unfold finalizeRet at h
      dsimp only at h
      by_cases h1 : setEqb (st.ret.eliminate_temp_vars rv).bindings_after_eliminate rv
          = true
      · rw [if_pos h1] at h
        have hret2 : nodupTree (st.ret.eliminate_temp_vars rv) :=
          nodupTree_eliminate _ _ hst
        rcases finalizeStage2_ok_shape _ _ _ h with rfl | rfl
        · exact nodupTree_bindingSetInvariant _ hret2
        · exact nodupTree_bindingSetInvariant _ ⟨hhead, hret2⟩
      · rw [if_neg h1] at h
        have hret1 : nodupTree (st.ret.eliminate_temp_vars rv) :=
          nodupTree_eliminate _ _ hst
        have hjoin : nodupTree ((st.ret.eliminate_temp_vars rv).cartesian_join
            RelAlgebra.unitRA) := by
          refine ⟨?_, hret1, List.nodup_nil⟩
          show ((st.ret.eliminate_temp_vars rv).bindings_after_eliminate
            ++ RelAlgebra.unitRA.bindings_after_eliminate).Nodup
          rw [show RelAlgebra.unitRA.bindings_after_eliminate = [] from rfl,
            List.append_nil]
          exact nodupTree_after _ hret1
        have hret2 : nodupTree (((st.ret.eliminate_temp_vars rv).cartesian_join
            RelAlgebra.unitRA).eliminate_temp_vars rv) :=
          nodupTree_eliminate _ _ hjoin
        rcases finalizeStage2_ok_shape _ _ _ h with rfl | rfl
        · exact nodupTree_bindingSetInvariant _ hret2
        · exact nodupTree_bindingSetInvariant _ ⟨hhead, hret2⟩

/-- Witness for C2: a two-atom body sharing variable `y` (which exercises a
synthetic join key) compiles to a plan satisfying the invariant. -/
theorem compile_binding_set_invariant_witness :
    bindingSetInvariant ((Compiler.new.compile_magic_rule_body
        ⟨["x", "z"], [.Rule (.muggle "e") ["x", "y"], .Rule (.muggle "e") ["y", "z"]]⟩
        [(.muggle "e", 2)] ["x", "z"]).toOption.getD RelAlgebra.unitRA) :=
  compile_binding_set_invariant Compiler.new
    ⟨["x", "z"], [.Rule (.muggle "e") ["x", "y"], .Rule (.muggle "e") ["y", "z"]]⟩
    [(.muggle "e", 2)] ["x", "z"] _ (by decide) (by decide) rfl

end Cozo
